import Mathlib

/-!
# Verification of the Planet aggregator core (`planet/__init__.py`)

Shallow embedding of the reconciliation engine and aggregate query layer of the
Planet feed aggregator.  Time instants (the UTC-normalised time tuples produced
by `time.gmtime` and compared after `time.mktime`) are modelled as integers;
feed entries are modelled as the sparse field bags that `feedparser` produces,
restricted to the fields the reconciliation code reads (`id`, `link`, `title`,
`summary` and the three parsed claimed dates).  Values whose string coercion
(`cache.utf8` / `set_as_string`) can raise are modelled by `Raw`, with `Raw.bad`
standing for a value whose coercion raises; exceptions are modelled with
`Except`.  The persistent typed attribute store (`cache.CachedInfo`, an external
collaborator not present in this repository) is modelled by explicit typed
record fields: an `Option` field is `none` when the key is absent or of NULL
type.  The MD5 hex digest used for id generation is kept as an abstract
deterministic `hash : String → String` parameter, since only its determinism
matters to the properties proved here.
-/

/-- Python 2 lexicographic comparison of strings (byte/codepoint order), as used
when the `(date, order, item)` tuples built by `Planet.items` / `Channel.items`
are sorted: second components are compared as strings, not numbers. -/
def lexLt : List Char → List Char → Bool
  | [], [] => false
  | [], _ :: _ => true
  | _ :: _, [] => false
  | a :: as, b :: bs => if a < b then true else if b < a then false else lexLt as bs

/-- Python 2 `<` on strings. -/
def pyStrLt (a b : String) : Bool := lexLt a.data b.data

/-- The decimal digit character for `d < 10` (used to model Python `str(int)`). -/
def digitChar (d : Nat) : Char := Char.ofNat (48 + d)

/-- Big-endian decimal digits of `n`, with explicit structural fuel. -/
def natToStrAux : Nat → Nat → List Char
  | 0, _ => []
  | fuel + 1, n => if n = 0 then [] else natToStrAux fuel (n / 10) ++ [digitChar (n % 10)]

/-- Python `str` of a non-negative integer (decimal). -/
def natToStr (n : Nat) : String := if n = 0 then "0" else ⟨natToStrAux n n⟩

/-- Python `int` of a decimal digit string. -/
def strToNat (s : String) : Nat :=
  s.data.foldl (fun acc c => acc * 10 + (c.toNat - 48)) 0

/-- A raw feed-supplied value: `Raw.bad` stands for a value whose coercion to a
stored string (`cache.utf8` / `set_as_string`) raises an exception. -/
inductive Raw
  | ok (s : String)
  | bad
deriving DecidableEq

/-- `cache.utf8`: coerce a raw value to a string, raising on a bad value. -/
def utf8 : Raw → Except Unit String
  | .ok s => .ok s
  | .bad => .error ()

/-- One feedparser entry, restricted to the fields `Channel.update_entries` and
`NewsItem.update` read.  The `modified`/`issued`/`created` fields model the
`*_parsed` date fields (already-parsed time tuples, as integers). -/
structure Entry where
  idField : Option Raw
  link : Option Raw
  title : Option Raw
  summary : Option Raw
  modified : Option Int
  issued : Option Int
  created : Option Int
deriving DecidableEq

/-- An entry with every field absent. -/
def Entry.empty : Entry := ⟨none, none, none, none, none, none, none⟩

/-- One item of news (`NewsItem`), backed by the cache record: an `Option`
field is `none` when the key is absent (or stored with NULL type). -/
structure NewsItem where
  id : String
  date : Option Int
  order : Option String
  hidden : Option String
  title : Option String
  link : Option String
  summary : Option String
  modified : Option Int
  issued : Option Int
  created : Option Int
deriving DecidableEq

/-- A freshly created `NewsItem(channel, id_)`: only the id is set. -/
def newNewsItem (id_ : String) : NewsItem :=
  ⟨id_, none, none, none, none, none, none, none, none, none⟩

/-- Python 2 `date < bound` where the bound may be `None` (`None` compares
below every time tuple, so the test is false when the bound is absent). -/
def pyLtOpt (d : Int) (o : Option Int) : Bool :=
  match o with
  | none => false
  | some x => decide (d < x)

/-- Python 2 `date > bound` where the bound may be `None` (every time tuple
compares above `None`, so the test is true when the bound is absent). -/
def pyGtOpt (d : Int) (o : Option Int) : Bool :=
  match o with
  | none => true
  | some x => decide (x < d)

/-- `NewsItem.get_date` of `planet/__init__.py` (lines 520-552): return the
already-resolved date unchanged if present; otherwise take the first of the
claimed dates `modified`, `issued`, `created`; bound it by the channel's
`updated` / `last_updated`; default to `updated`.  Returns the resolved date
together with the item with its `date` key set. -/
def NewsItem.get_date (updated last_updated : Option Int) (it : NewsItem) :
    Option Int × NewsItem :=
  match it.date with
  | some d => (some d, it)
  | none =>
    let claimed : Option Int :=
      match it.modified with
      | some d => some d
      | none =>
        match it.issued with
        | some d => some d
        | none => it.created
    let d : Option Int :=
      match claimed with
      | some d =>
        if pyGtOpt d updated then updated
        else if pyLtOpt d last_updated then updated
        else some d
      | none => updated
    (d, { it with date := d })

/-- `NewsItem.update` (lines 479-518): copy the entry's fields onto the item.
String fields are copied through `set_as_string`, whose failures are caught and
logged, skipping only that field; parsed date fields are stored with
`set_as_date`.  Finally the `date` key is resolved with `get_date`. -/
def NewsItem.update (updated last_updated : Option Int) (it : NewsItem) (e : Entry) :
    NewsItem :=
  let it :=
    match e.title with
    | some r => match utf8 r with
      | .ok s => { it with title := some s }
      | .error _ => it
    | none => it
  let it :=
    match e.link with
    | some r => match utf8 r with
      | .ok s => { it with link := some s }
      | .error _ => it
    | none => it
  let it :=
    match e.summary with
    | some r => match utf8 r with
      | .ok s => { it with summary := some s }
      | .error _ => it
    | none => it
  let it := match e.modified with
    | some d => { it with modified := some d }
    | none => it
  let it := match e.issued with
    | some d => { it with issued := some d }
    | none => it
  let it := match e.created with
    | some d => { it with created := some d }
    | none => it
  (NewsItem.get_date updated last_updated it).2

/-- A channel (`Channel`), with its persisted fields and its item collection.
The Python `_items` dict is modelled as a list of items with (invariantly)
unique ids, in insertion order. -/
structure Channel where
  url : String
  url_etag : Option String
  url_modified : Option Int
  name : Option String
  hidden : Option String
  updated : Option Int
  last_updated : Option Int
  next_order : String
  _items : List NewsItem
  _expired : List NewsItem
deriving DecidableEq

/-- Dict lookup `self._items[id_]` / `has_item`. -/
def find_item (its : List NewsItem) (id_ : String) : Option NewsItem :=
  its.find? (fun x => x.id == id_)

/-- Dict store `self._items[id_] = item`: replace in place when the id exists,
append otherwise. -/
def upsert_item (its : List NewsItem) (it : NewsItem) : List NewsItem :=
  if (its.find? (fun x => x.id == it.id)).isSome then
    its.map (fun x => if x.id == it.id then it else x)
  else its ++ [it]

/-- `time.mktime(item.date)` in the sort tuples; reconciled items always carry
a resolved date (the default never arises on reconciled states). -/
def NewsItem.sortTime (it : NewsItem) : Int := it.date.getD 0

/-- The string used as the second sort-tuple component (`item.order`). -/
def NewsItem.sortOrder (it : NewsItem) : String := it.order.getD ""

/-- Ascending comparison of the Python sort tuples
`(time.mktime(item.date), item.order, item)`: times numerically, then the
`order` strings in Python 2 lexicographic order. -/
def itemLe (a b : NewsItem) : Prop :=
  a.sortTime < b.sortTime ∨
    (a.sortTime = b.sortTime ∧ (pyStrLt a.sortOrder b.sortOrder = true ∨ a.sortOrder = b.sortOrder))

instance : DecidableRel itemLe := fun a b => by
  unfold itemLe; infer_instance

/-- `items.sort(); items.reverse()`: ascending sort then reversal. -/
def sortDesc (its : List NewsItem) : List NewsItem :=
  (List.insertionSort itemLe its).reverse

/-- `Channel.items` (lines 230-241): the item list, optionally including
hidden items, optionally sorted newest-first. -/
def Channel.items (ch : Channel) (hidden : Bool) (sorted : Bool) : List NewsItem :=
  let its := ch._items.filter (fun it => hidden || it.hidden.isNone)
  if sorted then sortDesc its else its

/-- Id resolution of `Channel.update_entries` (lines 371-385): entry id, else
link, else channel url + "/" + hash of title, else channel url + "/" + hash of
summary, else the entry is rejected (`none`).  A bad raw value raises. -/
def resolve_entry_id (url : String) (hash : String → String) (e : Entry) :
    Except Unit (Option String) :=
  match e.idField with
  | some r => match utf8 r with
    | .ok s => .ok (some s)
    | .error u => .error u
  | none =>
    match e.link with
    | some r => match utf8 r with
      | .ok s => .ok (some s)
      | .error u => .error u
    | none =>
      match e.title with
      | some r => match utf8 r with
        | .ok s => .ok (some (url ++ "/" ++ hash s))
        | .error u => .error u
      | none =>
        match e.summary with
        | some r => match utf8 r with
          | .ok s => .ok (some (url ++ "/" ++ hash s))
          | .error u => .error u
        | none => .ok none

/-- The ids the entries of a snapshot resolve to, in source order, rejected
entries omitted (raising entries contribute nothing here; the loop itself
aborts on them). -/
def snapshotIds (url : String) (hash : String → String) (entries : List Entry) :
    List String :=
  entries.filterMap (fun e =>
    match resolve_entry_id url hash e with
    | .ok (some i) => some i
    | _ => none)

/-- The item an accepted entry contributes: the existing item with that id
(or a fresh one), updated from the entry, and marked hidden when this is the
first reconciliation and the running `feed_items` count `cnt` exceeds the
new-feed-item limit. -/
def Channel.entry_item (nfi : Nat) (ch : Channel) (eid : String) (e : Entry)
    (cnt : Nat) : NewsItem :=
  let it := match find_item ch._items eid with
    | some it => it
    | none => newNewsItem eid
  let it := NewsItem.update ch.updated ch.last_updated it e
  if ch.last_updated = none ∧ nfi ≠ 0 ∧ cnt > nfi then
    { it with hidden := some "yes" }
  else it

/-- The per-entry loop of `Channel.update_entries` (lines 371-401): resolve
each entry's id (rejected entries are skipped, raising ones abort), create or
update the item, record it in `feed_items`, and hide excess items the first
time through.  Returns the channel together with the accumulated
`new_items` (as ids) and `feed_items`. -/
def Channel.merge_entries (nfi : Nat) (hash : String → String) :
    List Entry → Channel → List String → List String →
      Except Unit (Channel × List String × List String)
  | [], ch, newIds, feedIds => .ok (ch, newIds, feedIds)
  | e :: rest, ch, newIds, feedIds =>
    match resolve_entry_id ch.url hash e with
    | .error u => .error u
    | .ok none => Channel.merge_entries nfi hash rest ch newIds feedIds
    | .ok (some eid) =>
      let isNew := (find_item ch._items eid).isNone
      let it := Channel.entry_item nfi ch eid e (feedIds ++ [eid]).length
      let ch := { ch with _items := upsert_item ch._items it }
      Channel.merge_entries nfi hash rest ch
        (if isNew then newIds ++ [eid] else newIds) (feedIds ++ [eid])

/-- Order assignment of `Channel.update_entries` (lines 403-406): walk the
newly-created items in reverse snapshot order, giving each a freshly
incremented `next_order` (kept as a decimal string, as the source does). -/
def Channel.assign_step (ch : Channel) (eid : String) : Channel :=
  let ord := natToStr (strToNat ch.next_order + 1)
  { ch with
    next_order := ord,
    _items := ch._items.map
      (fun it => if it.id == eid then { it with order := some ord } else it) }

def Channel.assign_orders (ch : Channel) (newIds : List String) : Channel :=
  newIds.reverse.foldl Channel.assign_step ch

/-- The expiry scan of `Channel.update_entries` (lines 408-419), over the
sorted item list: stop when the remaining-match budget is exhausted; a scanned
item matching the snapshot ids consumes one unit; a scanned non-matching item
is expired.  Returns the expired items in scan order. -/
def expire_scan (feedIds : List String) : Nat → List NewsItem → List NewsItem
  | _, [] => []
  | fc, it :: rest =>
    if fc < 1 then []
    else if feedIds.contains it.id then expire_scan feedIds (fc - 1) rest
    else it :: expire_scan feedIds fc rest

/-- The number of items of `l` whose id is among the snapshot ids. -/
def matchCount (feedIds : List String) (l : List NewsItem) : Nat :=
  (l.filter (fun it => feedIds.contains it.id)).length

/-- Applying the expiry scan to the channel: the scan runs over
`self.items(sorted=1)` (the *non-hidden* items, newest first); expired items
leave `_items` and are queued on `_expired` for deletion from the cache. -/
def Channel.check_expired (ch : Channel) (feedIds : List String) : Channel :=
  let scan := ch.items false true
  let exp := expire_scan feedIds feedIds.length scan
  { ch with
    _items := ch._items.filter (fun it => !((exp.map NewsItem.id).contains it.id)),
    _expired := ch._expired ++ exp }

/-- `Channel.update_entries` (lines 348-419): skip empty snapshots; roll
`updated` into `last_updated` and stamp `updated := now`; merge the entries;
assign orders to the new items in reverse; run the expiry scan. -/
def Channel.update_entries (nfi : Nat) (hash : String → String) (now : Int)
    (entries : List Entry) (ch : Channel) : Except Unit Channel :=
  if entries.length = 0 then .ok ch
  else
    match Channel.merge_entries nfi hash entries
        { ch with last_updated := ch.updated, updated := some now } [] [] with
    | .error u => .error u
    | .ok (ch, newIds, feedIds) =>
      .ok (Channel.check_expired (Channel.assign_orders ch newIds) feedIds)

/-- Feed-level metadata, restricted to a representative field; the generic
metadata copy of `Channel.update_info` is not load-bearing for the claims. -/
structure FeedMeta where
  name : Option String
deriving DecidableEq

/-- `Channel.update_info` (surrogate for the generic field copy). -/
def Channel.update_info (ch : Channel) (f : FeedMeta) : Channel :=
  match f.name with
  | some n => { ch with name := some n }
  | none => ch

/-- The result of `feedparser.parse` as `Channel.update` consumes it:
`hasStatus = false` models `not info.has_key("status")` (the `status` number is
then irrelevant). -/
structure FetchInfo where
  hasStatus : Bool
  status : Nat
  url : String
  etag : Option String
  modified : Option Int
  feed : FeedMeta
  entries : List Entry
deriving DecidableEq

/-- `Channel.cache_write` (lines 257-265): persist surviving items, clear the
expired items from the cache, then write channel state; `_expired` is reset. -/
def Channel.cache_write (ch : Channel) : Channel :=
  { ch with _expired := [] }

/-- `Channel.update` (lines 267-303).  The returned boolean records whether
`cache_write` ran in this cycle.  On 304 (unchanged) and on error statuses
(>= 400) the method returns early: no state is touched and nothing is
persisted.  On 301/302 the url is rewritten (the cache-file aliasing by
`os.link` is an external file operation) and reconciliation proceeds. -/
def Channel.update (nfi : Nat) (hash : String → String) (now : Int)
    (ch : Channel) (info : FetchInfo) : Except Unit (Channel × Bool) :=
  let proceed : Channel → Except Unit (Channel × Bool) := fun ch =>
    let ch := { ch with url_etag := info.etag, url_modified := info.modified }
    let ch := Channel.update_info ch info.feed
    match Channel.update_entries nfi hash now info.entries ch with
    | .error u => .error u
    | .ok ch => .ok (Channel.cache_write ch, true)
  if !info.hasStatus then proceed ch
  else if info.status = 301 ∨ info.status = 302 then proceed { ch with url := info.url }
  else if info.status = 304 then .ok (ch, false)
  else if 400 ≤ info.status then .ok (ch, false)
  else proceed ch

/-- The planet: the subscribed channels plus the tunables the claims use. -/
structure Planet where
  _channels : List Channel
  new_feed_items : Nat
deriving DecidableEq

/-- `Planet.channels(hidden, sorted=0)` as used by `Planet.items`: the
channels not marked hidden (all of them when `hidden` is set), in
subscription order. -/
def Planet.channelsNoSort (p : Planet) (hidden : Bool) : List Channel :=
  p._channels.filter (fun ch => hidden || ch.hidden.isNone)

/-- The items `Planet.items` collects before sorting and windowing. -/
def Planet.eligibleItems (p : Planet) (hidden : Bool) : List NewsItem :=
  ((p.channelsNoSort hidden).map
    (fun ch => ch._items.filter (fun it => hidden || it.hidden.isNone))).flatten

/-- The `max_days` truncation loop of `Planet.items` (lines 134-143): keep the
initial run of items whose sort time is strictly after the cutoff and truncate
at the first item at or before it. -/
def maxDaysTrunc (cutoff : Int) : List NewsItem → List NewsItem
  | [] => []
  | it :: rest =>
    if cutoff < it.sortTime then it :: maxDaysTrunc cutoff rest else []

/-- `Planet.items` (lines 95-145): collect, sort newest-first when requested,
apply the `max_items` prefix truncation, then the `max_days` window (cutoff =
newest item's sort time minus `max_days * 84600` seconds). -/
def Planet.items (p : Planet) (hidden : Bool) (sorted : Bool)
    (max_items : Nat) (max_days : Nat) : List NewsItem :=
  let its := p.eligibleItems hidden
  let its := if sorted then sortDesc its else its
  let its := if its.length ≠ 0 ∧ max_items ≠ 0 then its.take max_items else its
  if its.length ≠ 0 ∧ max_days ≠ 0 then
    match its with
    | [] => []
    | top :: rest =>
      maxDaysTrunc (top.sortTime - (max_days : Int) * 84600) (top :: rest)
  else its

/-- The expiry rule exactly as claim C1 words it (second definition, following
the claim's words, for comparison with the code's `expire_scan`): matches
consume the budget while it is positive; scanning stops once the budget
reaches zero; only items reached *after* the budget is exhausted that are not
in the snapshot-id set are expired. -/
def claimC1Expire (feedIds : List String) : Nat → List NewsItem → List NewsItem
  | 0, rest => rest.filter (fun it => !(feedIds.contains it.id))
  | _ + 1, [] => []
  | fc + 1, it :: rest =>
    if feedIds.contains it.id then claimC1Expire feedIds fc rest
    else claimC1Expire feedIds (fc + 1) rest

/-- The order of `claimed` dates inspected by `get_date`: first of
`modified`, `issued`, `created`. -/
def claimedDate (it : NewsItem) : Option Int :=
  match it.modified with
  | some d => some d
  | none =>
    match it.issued with
    | some d => some d
    | none => it.created

/-- An entry carrying only a title. -/
def titleEntry (s : String) : Entry := ⟨none, none, some (Raw.ok s), none, none, none, none⟩

/-- An entry carrying only a declared id. -/
def idEntry (s : String) : Entry := ⟨some (Raw.ok s), none, none, none, none, none, none⟩

/-- A freshly subscribed channel: no cached state, `next_order = "0"`. -/
def freshChannel (url : String) : Channel :=
  ⟨url, none, none, none, none, none, none, "0", [], []⟩

/-- Concrete item for the C3 counterexample: no resolved date, claimed
`modified` date 5. -/
def c3item : NewsItem := ⟨"i", none, none, none, none, none, none, some 5, none, none⟩

/-- Concrete item for the C3 witness: claimed `modified` date 7. -/
def c3witnessItem : NewsItem := ⟨"w", none, none, none, none, none, none, some 7, none, none⟩

/-- Item with order "9" for C10. -/
def c10a : NewsItem := ⟨"a", some 50, some "9", none, none, none, none, none, none, none⟩

/-- Item with order "10" for C10. -/
def c10b : NewsItem := ⟨"b", some 50, some "10", none, none, none, none, none, none, none⟩

/-- Channel holding the two C10 items. -/
def c10chan : Channel := ⟨"u", none, none, none, none, some 60, some 40, "10", [c10b, c10a], []⟩

/-- Planet holding the C10 channel. -/
def c10planet : Planet := ⟨[c10chan], 2⟩

/-- An entry whose declared id raises on coercion (models a value
`cache.utf8` cannot handle). -/
def badIdEntry : Entry := ⟨some Raw.bad, none, none, none, none, none, none⟩

/-- Concrete channel for the C6 counterexample. -/
def c6chan : Channel := freshChannel "u"

/-- A fetch result with error status 404 carrying fresh negotiation tokens
and entries that would change state were they processed. -/
def c6info : FetchInfo := ⟨true, 404, "u", some "etag2", some 77, ⟨some "New"⟩, [idEntry "x"]⟩

/-- The channel state produced by reconciling a fresh channel with the
single-entry snapshot `[idEntry "x"]` at time 100 (used by witnesses). -/
def c9result : Channel :=
  ⟨"u", none, none, none, none, some 100, none, "1",
    [⟨"x", some 100, some "1", none, none, none, none, none, none, none⟩], []⟩

/-- C1 example: newest item, not present in the next snapshot. -/
def c1itemA : NewsItem := ⟨"A", some 10, some "2", none, none, none, none, none, none, none⟩

/-- C1 example: older item, present in the next snapshot. -/
def c1itemB : NewsItem := ⟨"B", some 5, some "1", none, none, none, none, none, none, none⟩

/-- C1 example channel before reconciliation. -/
def c1chan : Channel :=
  ⟨"u", none, none, none, none, some 20, some 0, "2", [c1itemA, c1itemB], []⟩

/-- C1 example channel state after the entry merge (before expiry). -/
def c1chm : Channel :=
  ⟨"u", none, none, none, none, some 30, some 20, "2", [c1itemA, c1itemB], []⟩

/-- C1 example channel after reconciling with the snapshot `[idEntry "B"]`:
the newest item "A", scanned while the budget was still positive and absent
from the snapshot, is expired. -/
def c1result : Channel :=
  ⟨"u", none, none, none, none, some 30, some 20, "2", [c1itemB], [c1itemA]⟩

/-- C1 budget example: item "B" (newest, in the snapshot). -/
def c1bitemB : NewsItem := ⟨"B", some 10, some "2", none, none, none, none, none, none, none⟩

/-- C1 budget example: item "C" (older, not in the snapshot). -/
def c1bitemC : NewsItem := ⟨"C", some 5, some "1", none, none, none, none, none, none, none⟩

/-- C1 budget example channel. -/
def c1bchan : Channel :=
  ⟨"u", none, none, none, none, some 20, some 0, "2", [c1bitemB, c1bitemC], []⟩

/-- C1 budget example after reconciling with `[idEntry "B", Entry.empty]`:
the rejected second entry does not enlarge the budget, so "C" (reached after
the budget of 1 is exhausted) is retained. -/
def c1bresult : Channel :=
  ⟨"u", none, none, none, none, some 30, some 20, "2", [c1bitemB, c1bitemC], []⟩

/-- C8 example items (dates 100, 90, -90000). -/
def c8item1 : NewsItem := ⟨"p1", some 100, some "3", none, none, none, none, none, none, none⟩

def c8item2 : NewsItem := ⟨"p2", some 90, some "2", none, none, none, none, none, none, none⟩

def c8item3 : NewsItem := ⟨"p3", some (-90000), some "1", none, none, none, none, none, none, none⟩

/-- C8 example channel. -/
def c8chan : Channel :=
  ⟨"u", none, none, none, none, some 200, some 0, "3", [c8item3, c8item1, c8item2], []⟩

/-- C8 example planet. -/
def c8planet : Planet := ⟨[c8chan], 2⟩

/-- C4 example snapshot: five entries with declared ids. -/
def c4entries : List Entry :=
  [idEntry "e1", idEntry "e2", idEntry "e3", idEntry "e4", idEntry "e5"]

/-- C4 expected result: first reconciliation of a fresh channel with five
entries and new-feed-item limit 2 leaves the first two unhidden and hides the
other three; orders are assigned in reverse snapshot order. -/
def c4result : Channel :=
  ⟨"u", none, none, none, none, some 100, none, "5",
    [⟨"e1", some 100, some "5", none, none, none, none, none, none, none⟩,
     ⟨"e2", some 100, some "4", none, none, none, none, none, none, none⟩,
     ⟨"e3", some 100, some "3", some "yes", none, none, none, none, none, none⟩,
     ⟨"e4", some 100, some "2", some "yes", none, none, none, none, none, none⟩,
     ⟨"e5", some 100, some "1", some "yes", none, none, none, none, none, none⟩], []⟩

/-- The order-counter invariant of a channel: `next_order` is a canonical
decimal string, item ids are unique, every item's order is a canonical
decimal numeral bounded by `next_order`, and no two items share an order
value. -/
def OrderInv (ch : Channel) : Prop :=
  ch.next_order = natToStr (strToNat ch.next_order) ∧
  (ch._items.map NewsItem.id).Nodup ∧
  (∀ it ∈ ch._items, ∃ n, it.order = some (natToStr n) ∧ n ≤ strToNat ch.next_order) ∧
  (∀ x ∈ ch._items, ∀ y ∈ ch._items, x.order = y.order → x = y)

/-- C5 example: channel state after merging `[idEntry "a", idEntry "b"]`
into a fresh channel (orders not yet assigned). -/
def c5chm : Channel :=
  ⟨"u", none, none, none, none, some 100, none, "0",
    [⟨"a", some 100, none, none, none, none, none, none, none, none⟩,
     ⟨"b", some 100, none, none, none, none, none, none, none, none⟩], []⟩

/-- C5 example: final channel state; the later entry "b" got the lower
order "1", the earlier entry "a" got "2". -/
def c5result : Channel :=
  ⟨"u", none, none, none, none, some 100, none, "2",
    [⟨"a", some 100, some "2", none, none, none, none, none, none, none⟩,
     ⟨"b", some 100, some "1", none, none, none, none, none, none, none⟩], []⟩

-- ===================== theorems =====================

theorem lexLt_irrefl : ∀ l : List Char, lexLt l l = false
  | [] => rfl
  | a :: as => by simp [lexLt, lexLt_irrefl as]

theorem lexLt_trans : ∀ {a b c : List Char},
    lexLt a b = true → lexLt b c = true → lexLt a c = true
  | [], [], _ :: _, h, _ => by simp [lexLt] at h
  | [], _ :: _, _ :: _, _, _ => rfl
  | _ :: _, [], _, h, _ => by simp [lexLt] at h
  | _ :: _, _ :: _, [], _, h => by simp [lexLt] at h
  | x :: xs, y :: ys, z :: zs, h₁, h₂ => by
    simp only [lexLt] at h₁ h₂ ⊢
    rcases lt_trichotomy x y with hxy | hxy | hxy
    · rcases lt_trichotomy y z with hyz | hyz | hyz
      · simp [lt_trans hxy hyz]
      · subst hyz; simp [hxy]
      · simp [hyz, lt_asymm hyz] at h₂
    · subst hxy
      rcases lt_trichotomy x z with hxz | hxz | hxz
      · simp [hxz]
      · subst hxz
        simp only [lt_irrefl, if_false] at h₁ h₂ ⊢
        exact lexLt_trans h₁ h₂
      · simp [hxz, lt_asymm hxz] at h₂
    · simp [hxy, lt_asymm hxy] at h₁

theorem lexLt_antisymm : ∀ {a b : List Char},
    lexLt a b = false → lexLt b a = false → a = b
  | [], [], _, _ => rfl
  | [], _ :: _, h, _ => by simp [lexLt] at h
  | _ :: _, [], _, h => by simp [lexLt] at h
  | x :: xs, y :: ys, h₁, h₂ => by
    simp only [lexLt] at h₁ h₂
    rcases lt_trichotomy x y with hxy | hxy | hxy
    · simp [hxy] at h₁
    · subst hxy
      simp only [lt_irrefl, if_false] at h₁ h₂
      rw [lexLt_antisymm h₁ h₂]
    · simp [hxy] at h₂

theorem pyStrLt_trans {a b c : String} (h₁ : pyStrLt a b = true)
    (h₂ : pyStrLt b c = true) : pyStrLt a c = true :=
  lexLt_trans h₁ h₂

theorem pyStrLt_antisymm {a b : String} (h₁ : pyStrLt a b = false)
    (h₂ : pyStrLt b a = false) : a = b :=
  String.ext (lexLt_antisymm h₁ h₂)

instance : IsTotal NewsItem itemLe := by
  constructor
  intro a b
  rcases lt_trichotomy a.sortTime b.sortTime with h | h | h
  · exact Or.inl (Or.inl h)
  · cases hab : pyStrLt a.sortOrder b.sortOrder
    · cases hba : pyStrLt b.sortOrder a.sortOrder
      · exact Or.inl (Or.inr ⟨h, Or.inr (pyStrLt_antisymm hab hba)⟩)
      · exact Or.inr (Or.inr ⟨h.symm, Or.inl hba⟩)
    · exact Or.inl (Or.inr ⟨h, Or.inl hab⟩)
  · exact Or.inr (Or.inl h)

instance : IsTrans NewsItem itemLe := by
  constructor
  rintro a b c (h₁ | ⟨he₁, h₁⟩) (h₂ | ⟨he₂, h₂⟩)
  · exact Or.inl (lt_trans h₁ h₂)
  · exact Or.inl (he₂ ▸ h₁)
  · exact Or.inl (he₁ ▸ h₂)
  · refine Or.inr ⟨he₁.trans he₂, ?_⟩
    rcases h₁ with h₁ | h₁ <;> rcases h₂ with h₂ | h₂
    · exact Or.inl (pyStrLt_trans h₁ h₂)
    · exact Or.inl (h₂ ▸ h₁)
    · exact Or.inl (h₁ ▸ h₂)
    · exact Or.inr (h₁.trans h₂)

theorem sortDesc_perm (l : List NewsItem) : (sortDesc l).Perm l :=
  (List.reverse_perm _).trans (List.perm_insertionSort itemLe l)

theorem sortDesc_sorted (l : List NewsItem) :
    (sortDesc l).Sorted (fun a b => itemLe b a) := by
  unfold sortDesc
  exact (List.pairwise_reverse).2 (List.sorted_insertionSort itemLe l)

theorem digitChar_val {d : Nat} (h : d < 10) : (digitChar d).toNat - 48 = d := by
  interval_cases d <;> decide

theorem strToNat_aux (fuel n : Nat) (h : n ≤ fuel) :
    (natToStrAux fuel n).foldl (fun acc c => acc * 10 + (c.toNat - 48)) 0 = n := by
  induction fuel generalizing n with
  | zero => interval_cases n; rfl
  | succ fuel ih =>
    by_cases hn : n = 0
    · subst hn; simp [natToStrAux]
    · rw [natToStrAux, if_neg hn, List.foldl_append]
      have hdiv : n / 10 ≤ fuel := by
        have := Nat.div_lt_self (Nat.pos_of_ne_zero hn) (by norm_num : 1 < 10)
        omega
      rw [ih _ hdiv]
      simp only [List.foldl]
      rw [digitChar_val (Nat.mod_lt n (by norm_num))]
      omega

theorem strToNat_natToStr (n : Nat) : strToNat (natToStr n) = n := by
  by_cases hn : n = 0
  · subst hn; decide
  · rw [natToStr, if_neg hn]
    exact strToNat_aux n n le_rfl

theorem natToStr_injective {m n : Nat} (h : natToStr m = natToStr n) : m = n := by
  have := strToNat_natToStr m
  rw [h, strToNat_natToStr] at this
  exact this.symm

/-- C3 (amended): `NewsItem.get_date` returns an already-resolved date
unchanged; otherwise it takes the first present of the claimed dates
`modified`, `issued`, `created`; with no claimed date it resolves to the
channel's `updated`; a claimed date after `updated` or before `last_updated`
is clamped to `updated` (never to `last_updated`), so with both bounds set
(and `last_updated ≤ updated`) the resolved date lies in
`[last_updated, updated]`; when `last_updated` is unset, a claimed date is
kept when it does not exceed `updated` (resolved = min(claimed, updated)),
not replaced by `updated`. -/
theorem get_date_resolution (U : Int) (lu : Option Int) (it : NewsItem) :
    (∀ d, it.date = some d → NewsItem.get_date (some U) lu it = (some d, it)) ∧
    (it.date = none → claimedDate it = none →
      (NewsItem.get_date (some U) lu it).1 = some U) ∧
    (∀ d, it.date = none → claimedDate it = some d → U < d →
      (NewsItem.get_date (some U) lu it).1 = some U) ∧
    (∀ d L, it.date = none → claimedDate it = some d → lu = some L → d ≤ U → d < L →
      (NewsItem.get_date (some U) lu it).1 = some U) ∧
    (∀ d L, it.date = none → claimedDate it = some d → lu = some L → L ≤ U →
      ∃ r, (NewsItem.get_date (some U) lu it).1 = some r ∧ L ≤ r ∧ r ≤ U) ∧
    (∀ d, it.date = none → claimedDate it = some d → lu = none →
      (NewsItem.get_date (some U) lu it).1 = some (min d U)) := by
  have hcl : ∀ h : it.date = none,
      NewsItem.get_date (some U) lu it =
        ((match claimedDate it with
          | some d =>
            if pyGtOpt d (some U) then some U
            else if pyLtOpt d lu then some U
            else some d
          | none => some U),
         { it with date :=
            (match claimedDate it with
             | some d =>
               if pyGtOpt d (some U) then some U
               else if pyLtOpt d lu then some U
               else some d
             | none => some U) }) := by
    intro h
    rw [NewsItem.get_date, h]
    rfl
  refine ⟨?_, ?_, ?_, ?_, ?_, ?_⟩
  · intro d hd
    rw [NewsItem.get_date, hd]
  · intro hd hc
    rw [hcl hd, hc]
  · intro d hd hc h
    rw [hcl hd, hc]
    simp only [pyGtOpt, decide_eq_true_eq]
    rw [if_pos h]
  · intro d L hd hc hL hdU hdL
    subst hL
    rw [hcl hd, hc]
    simp only [pyGtOpt, pyLtOpt, decide_eq_true_eq]
    rw [if_neg (by omega), if_pos (by omega)]
  · intro d L hd hc hL hLU
    subst hL
    rw [hcl hd, hc]
    simp only [pyGtOpt, pyLtOpt, decide_eq_true_eq]
    by_cases h₁ : U < d
    · rw [if_pos h₁]; exact ⟨U, rfl, hLU, le_rfl⟩
    · rw [if_neg h₁]
      by_cases h₂ : d < L
      · rw [if_pos h₂]; exact ⟨U, rfl, hLU, le_rfl⟩
      · rw [if_neg h₂]; exact ⟨d, rfl, by omega, by omega⟩
  · intro d hd hc hL
    subst hL
    rw [hcl hd, hc]
    simp only [pyGtOpt, pyLtOpt, decide_eq_true_eq]
    by_cases h₁ : U < d
    · rw [if_pos h₁, min_eq_right (by omega)]
    · rw [if_neg h₁, if_neg (by exact Bool.false_ne_true), min_eq_left (by omega)]

/-- C3 witness: a claimed date 7 inside the window `[2, 10]` resolves inside
the window. -/
theorem get_date_resolution_witness :
    ∃ r, (NewsItem.get_date (some 10) (some 2) c3witnessItem).1 = some r ∧
      2 ≤ r ∧ r ≤ 10 :=
  (get_date_resolution 10 (some 2) c3witnessItem).2.2.2.2.1 7 2 rfl rfl rfl (by decide)

/-- C3 counterexample: the claim's "otherwise the resolved date equals
updated" fails when a claimed date exists but `last_updated` is unset: with
`updated = 10`, `last_updated = None` and claimed `modified = 5`, the code
keeps 5 instead of resolving to 10. -/
theorem get_date_resolution_counterexample :
    c3item.date = none ∧ claimedDate c3item = some 5 ∧
      (NewsItem.get_date (some 10) none c3item).1 = some 5 ∧
      (NewsItem.get_date (some 10) none c3item).1 ≠ some 10 := by
  refine ⟨rfl, rfl, rfl, ?_⟩
  decide

/-- C2: id resolution precedence (declared id, else link, else channel url +
"/" + hash(title), else channel url + "/" + hash(summary)); an entry with none
of these is rejected: it produces no item and leaves the channel state, the
`new_items` list (ordering) and the `feed_items` list (expiry budget)
untouched.  Reconciling a title-only entry twice yields the same id and the
same item. -/
theorem entry_identity (url : String) (hash : String → String) (s : String) :
    (∀ e : Entry, e.idField = some (Raw.ok s) →
      resolve_entry_id url hash e = .ok (some s)) ∧
    (∀ e : Entry, e.idField = none → e.link = some (Raw.ok s) →
      resolve_entry_id url hash e = .ok (some s)) ∧
    (∀ e : Entry, e.idField = none → e.link = none → e.title = some (Raw.ok s) →
      resolve_entry_id url hash e = .ok (some (url ++ "/" ++ hash s))) ∧
    (∀ e : Entry, e.idField = none → e.link = none → e.title = none →
      e.summary = some (Raw.ok s) →
      resolve_entry_id url hash e = .ok (some (url ++ "/" ++ hash s))) ∧
    (∀ e : Entry, e.idField = none → e.link = none → e.title = none → e.summary = none →
      resolve_entry_id url hash e = .ok none ∧
      ∀ nfi rest ch newIds feedIds,
        Channel.merge_entries nfi hash (e :: rest) ch newIds feedIds =
          Channel.merge_entries nfi hash rest ch newIds feedIds) ∧
    (∀ nfi : Nat, ∀ now₁ now₂ : Int, ∃ ch₁ ch₂,
      Channel.update_entries nfi hash now₁ [titleEntry s] (freshChannel url) = .ok ch₁ ∧
      Channel.update_entries nfi hash now₂ [titleEntry s] ch₁ = .ok ch₂ ∧
      ch₂._items = ch₁._items ∧ ch₂.next_order = ch₁.next_order ∧
      ch₁._items.map NewsItem.id = [url ++ "/" ++ hash s]) := by
  refine ⟨?_, ?_, ?_, ?_, ?_, ?_⟩
  · intro e h₁; simp [resolve_entry_id, h₁, utf8]
  · intro e h₁ h₂; simp [resolve_entry_id, h₁, h₂, utf8]
  · intro e h₁ h₂ h₃; simp [resolve_entry_id, h₁, h₂, h₃, utf8]
  · intro e h₁ h₂ h₃ h₄; simp [resolve_entry_id, h₁, h₂, h₃, h₄, utf8]
  · intro e h₁ h₂ h₃ h₄
    refine ⟨by simp [resolve_entry_id, h₁, h₂, h₃, h₄], ?_⟩
    intro nfi rest ch newIds feedIds
    simp [Channel.merge_entries, resolve_entry_id, h₁, h₂, h₃, h₄]
  · intro nfi now₁ now₂
    refine ⟨⟨url, none, none, none, none, some now₁, none, "1",
        [⟨url ++ "/" ++ hash s, some now₁, some "1", none, some s,
          none, none, none, none, none⟩], []⟩,
      ⟨url, none, none, none, none, some now₂, some now₁, "1",
        [⟨url ++ "/" ++ hash s, some now₁, some "1", none, some s,
          none, none, none, none, none⟩], []⟩, ?_, ?_, rfl, rfl, rfl⟩
    · cases nfi <;>
      simp [Channel.update_entries, Channel.merge_entries, Channel.entry_item, resolve_entry_id,
        titleEntry, utf8, find_item, NewsItem.update, NewsItem.get_date, upsert_item, freshChannel,
        Channel.assign_orders, Channel.assign_step, Channel.check_expired, Channel.items,
        sortDesc, List.insertionSort, List.orderedInsert, expire_scan, newNewsItem,
        strToNat, natToStr, natToStrAux, digitChar]
    · simp [Channel.update_entries, Channel.merge_entries, Channel.entry_item, resolve_entry_id,
        titleEntry, utf8, find_item, NewsItem.update, NewsItem.get_date, upsert_item,
        Channel.assign_orders, Channel.assign_step, Channel.check_expired, Channel.items,
        sortDesc, List.insertionSort, List.orderedInsert, expire_scan, newNewsItem]

/-- C2 witness: with the identity hash and concrete strings, a title-only
entry gets id `"u/T"` both times it is reconciled, and the item is unchanged
by the second reconciliation. -/
theorem entry_identity_witness :
    ∃ ch₁ ch₂,
      Channel.update_entries 2 (fun s => s) 100 [titleEntry "T"] (freshChannel "u") = .ok ch₁ ∧
      Channel.update_entries 2 (fun s => s) 200 [titleEntry "T"] ch₁ = .ok ch₂ ∧
      ch₂._items = ch₁._items ∧ ch₂.next_order = ch₁.next_order ∧
      ch₁._items.map NewsItem.id = ["u" ++ "/" ++ "T"] :=
  (entry_identity "u" (fun s => s) "T").2.2.2.2.2 2 100 200

/-- C10: with equal dates, ordering in the sorted views is by Python string
comparison of the decimal `order` values, so an item with order "9" sorts
above (as newer than) one with order "10" in both `Channel.items` and
`Planet.items`, although "10" is the numerically later-assigned counter
value — presentation order disagrees with assignment order. -/
theorem order_tie_break_lexicographic (t : Int) (a b : NewsItem)
    (ha : a.date = some t) (hb : b.date = some t)
    (hoa : a.order = some "9") (hob : b.order = some "10")
    (hha : a.hidden = none) (hhb : b.hidden = none) :
    (∀ ch : Channel, ch._items = [b, a] → Channel.items ch false true = [a, b]) ∧
    (∀ (p : Planet) (ch : Channel), p._channels = [ch] → ch.hidden = none →
      ch._items = [b, a] → Planet.items p false true 0 0 = [a, b]) ∧
    strToNat "9" < strToNat "10" := by
  have hle : itemLe b a := by
    refine Or.inr ⟨?_, Or.inl ?_⟩
    · simp [NewsItem.sortTime, ha, hb]
    · simp [NewsItem.sortOrder, hoa, hob]
      decide
  have hsort : sortDesc [b, a] = [a, b] := by
    unfold sortDesc
    simp only [List.insertionSort, List.orderedInsert]
    rw [if_pos hle]
    rfl
  refine ⟨?_, ?_, by decide⟩
  · intro ch hitems
    simp [Channel.items, hitems, hha, hhb, hsort]
  · intro p ch hp hch hitems
    simp [Planet.items, Planet.eligibleItems, Planet.channelsNoSort, hp, hch, hitems,
      hha, hhb, hsort]

/-- C10 witness: concrete two-item channel and planet. -/
theorem order_tie_break_lexicographic_witness :
    Channel.items c10chan false true = [c10a, c10b] ∧
      Planet.items c10planet false true 0 0 = [c10a, c10b] :=
  ⟨((order_tie_break_lexicographic 50 c10a c10b rfl rfl rfl rfl rfl rfl).1 c10chan rfl),
   ((order_tie_break_lexicographic 50 c10a c10b rfl rfl rfl rfl rfl rfl).2.1
      c10planet c10chan rfl rfl rfl)⟩

/-- C6 (amended): on an error status (>= 400) `Channel.update` returns
immediately: no Channel or Item state is mutated (not even the negotiation
tokens) and nothing is persisted in that cycle — `cache_write` only runs when
reconciliation proceeds past the status checks; likewise 304 returns with no
persistence.  On a proceeding fetch (no status), tokens are taken from the
fetch result and `cache_write` runs after `update_entries`. -/
theorem transport_failure_semantics (nfi : Nat) (hash : String → String) (now : Int)
    (ch : Channel) (info : FetchInfo) :
    (info.hasStatus = true → 400 ≤ info.status →
      Channel.update nfi hash now ch info = .ok (ch, false)) ∧
    (info.hasStatus = true → info.status = 304 →
      Channel.update nfi hash now ch info = .ok (ch, false)) ∧
    (info.hasStatus = false → ∀ ch',
      Channel.update_entries nfi hash now info.entries
        (Channel.update_info
          { ch with url_etag := info.etag, url_modified := info.modified } info.feed) =
        .ok ch' →
      Channel.update nfi hash now ch info = .ok (Channel.cache_write ch', true)) := by
  refine ⟨?_, ?_, ?_⟩
  · intro hs h4
    rw [Channel.update, hs]
    simp only [Bool.not_true, Bool.false_eq_true, if_false]
    rw [if_neg (by omega), if_neg (by omega), if_pos h4]
  · intro hs h304
    rw [Channel.update, hs]
    simp only [Bool.not_true, Bool.false_eq_true, if_false]
    rw [if_neg (by omega), if_pos h304]
  · intro hs ch' hup
    rw [Channel.update, hs]
    simp only [Bool.not_false, if_true]
    rw [hup]

/-- C6 witness: the error branch at a concrete channel and 404 response. -/
theorem transport_failure_semantics_witness :
    Channel.update 2 (fun s => s) 100 c6chan c6info = .ok (c6chan, false) :=
  (transport_failure_semantics 2 (fun s => s) 100 c6chan c6info).1 rfl (by decide)

/-- C6 counterexample: after a 404 fetch nothing is persisted — the result's
flag records that `cache_write` never ran, refuting the claim that the
channel's state is persisted after every reconciliation (successful or not).
The negotiation tokens of `c6info` are not even stored. -/
theorem transport_failure_counterexample :
    Channel.update 2 (fun s => s) 100 c6chan c6info = .ok (c6chan, false) ∧
      (∀ ch' : Channel, ¬ Channel.update 2 (fun s => s) 100 c6chan c6info = .ok (ch', true)) ∧
      c6chan.url_etag ≠ c6info.etag := by
  refine ⟨rfl, ?_, by decide⟩
  intro ch' h
  rw [show Channel.update 2 (fun s => s) 100 c6chan c6info = .ok (c6chan, false) from rfl] at h
  simp at h

/-- C7 (amended): a string-field value whose coercion raises is absorbed at
field granularity — `NewsItem.update` behaves as if the field were absent,
the entry and the reconciliation continue; but an error while resolving an
entry's id is not caught and aborts the whole channel's reconciliation. -/
theorem per_entry_failure_absorption :
    (∀ (u lu : Option Int) (it : NewsItem) (e : Entry),
      NewsItem.update u lu it { e with title := some Raw.bad } =
        NewsItem.update u lu it { e with title := none }) ∧
    (∀ (u lu : Option Int) (it : NewsItem) (e : Entry),
      NewsItem.update u lu it { e with link := some Raw.bad } =
        NewsItem.update u lu it { e with link := none }) ∧
    (∀ (u lu : Option Int) (it : NewsItem) (e : Entry),
      NewsItem.update u lu it { e with summary := some Raw.bad } =
        NewsItem.update u lu it { e with summary := none }) ∧
    (∀ (nfi : Nat) (hash : String → String) (es : List Entry) (ch : Channel)
        (newIds feedIds : List String) (e : Entry) (i : String),
      e.idField = some (Raw.ok i) →
      Channel.merge_entries nfi hash ({ e with title := some Raw.bad } :: es) ch newIds feedIds =
        Channel.merge_entries nfi hash ({ e with title := none } :: es) ch newIds feedIds) ∧
    (∀ (nfi : Nat) (hash : String → String) (es : List Entry) (ch : Channel)
        (newIds feedIds : List String) (e : Entry),
      e.idField = some Raw.bad →
      Channel.merge_entries nfi hash (e :: es) ch newIds feedIds = .error ()) := by
  have habs : ∀ (u lu : Option Int) (it : NewsItem)
      (idf lnk smry : Option Raw) (mo iss cr : Option Int),
      NewsItem.update u lu it ⟨idf, lnk, some Raw.bad, smry, mo, iss, cr⟩ =
        NewsItem.update u lu it ⟨idf, lnk, none, smry, mo, iss, cr⟩ :=
    fun u lu it idf lnk smry mo iss cr => rfl
  refine ⟨fun u lu it e => rfl, fun u lu it e => rfl, fun u lu it e => rfl, ?_, ?_⟩
  · intro nfi hash es ch newIds feedIds e i h
    simp only [Channel.merge_entries, Channel.entry_item, resolve_entry_id, h, utf8, habs]
  · intro nfi hash es ch newIds feedIds e h
    simp only [Channel.merge_entries, resolve_entry_id, h, utf8]

/-- C7 witness: the field-absorption branch applied at concrete inputs. -/
theorem per_entry_failure_absorption_witness :
    Channel.merge_entries 2 (fun s => s)
        [{ idEntry "g" with title := some Raw.bad }] (freshChannel "u") [] [] =
      Channel.merge_entries 2 (fun s => s)
        [{ idEntry "g" with title := none }] (freshChannel "u") [] [] :=
  (per_entry_failure_absorption).2.2.2.1 2 (fun s => s) [] (freshChannel "u") [] []
    (idEntry "g") "g" rfl

/-- C7 counterexample: an entry whose id coercion raises aborts the whole
reconciliation — the following well-formed entry is never processed, refuting
the claim that errors during id resolution are caught and only that entry is
skipped. -/
theorem per_entry_failure_counterexample :
    Channel.update_entries 2 (fun s => s) 100 [badIdEntry, idEntry "g"]
      (freshChannel "u") = .error () := rfl

theorem find_item_id {its : List NewsItem} {i : String} {x : NewsItem}
    (h : find_item its i = some x) : x.id = i := by
  have := List.find?_some h
  simpa using this

theorem get_date_id (u lu : Option Int) (it : NewsItem) :
    ((NewsItem.get_date u lu it).2).id = it.id := by
  cases hd : it.date <;> simp [NewsItem.get_date, hd]

theorem update_item_id (u lu : Option Int) (it : NewsItem) (e : Entry) :
    (NewsItem.update u lu it e).id = it.id := by
  obtain ⟨idf, lnk, ttl, smr, mo, iss, cr⟩ := e
  rcases ttl with _ | (t₁ | _) <;> rcases lnk with _ | (l₁ | _) <;>
    rcases smr with _ | (s₁ | _) <;> rcases mo with _ | m₁ <;>
    rcases iss with _ | i₁ <;> rcases cr with _ | c₁ <;>
    simp [NewsItem.update, utf8, get_date_id]

theorem upsert_preserves_id (its : List NewsItem) (it : NewsItem) (i : String)
    (h : ∃ x, x ∈ its ∧ x.id = i) : ∃ x, x ∈ upsert_item its it ∧ x.id = i := by
  obtain ⟨x, hx, hxi⟩ := h
  unfold upsert_item
  split
  · by_cases he : (x.id == it.id) = true
    · have hxe : x.id = it.id := by simpa using he
      exact ⟨it, List.mem_map.mpr ⟨x, hx, by rw [if_pos he]⟩, by rw [← hxe, hxi]⟩
    · exact ⟨x, List.mem_map.mpr ⟨x, hx, by rw [if_neg he]⟩, hxi⟩
  · exact ⟨x, List.mem_append_left _ hx, hxi⟩

theorem upsert_mem_id (its : List NewsItem) (it : NewsItem) :
    ∃ x, x ∈ upsert_item its it ∧ x.id = it.id := by
  unfold upsert_item
  split
  · next hs =>
    obtain ⟨y, hy⟩ := Option.isSome_iff_exists.mp hs
    have hmem := List.mem_of_find?_eq_some hy
    have hp := List.find?_some hy
    exact ⟨it, List.mem_map.mpr ⟨y, hmem, by rw [if_pos hp]⟩, rfl⟩
  · exact ⟨it, List.mem_append_right _ (List.mem_singleton.mpr rfl), rfl⟩

theorem entry_item_id (nfi : Nat) (ch : Channel) (eid : String) (e : Entry) (cnt : Nat) :
    (Channel.entry_item nfi ch eid e cnt).id = eid := by
  simp only [Channel.entry_item]
  cases hf : find_item ch._items eid with
  | none => split <;> simp [update_item_id, newNewsItem]
  | some x =>
    have hx := find_item_id hf
    split <;> simp [update_item_id, hx]

theorem merge_entries_spec (nfi : Nat) (hash : String → String) (es : List Entry) :
    ∀ (ch : Channel) (newIds feedIds : List String) (ch' : Channel) (nI' fI' : List String),
      Channel.merge_entries nfi hash es ch newIds feedIds = .ok (ch', nI', fI') →
      ch'.url = ch.url ∧ ch'.updated = ch.updated ∧ ch'.last_updated = ch.last_updated ∧
      ch'.next_order = ch.next_order ∧ ch'._expired = ch._expired ∧
      fI' = feedIds ++ snapshotIds ch.url hash es ∧
      (∀ i, (∃ x, x ∈ ch._items ∧ x.id = i) → ∃ x, x ∈ ch'._items ∧ x.id = i) ∧
      (∀ i, i ∈ snapshotIds ch.url hash es → ∃ x, x ∈ ch'._items ∧ x.id = i) := by
  induction es with
  | nil =>
    intro ch newIds feedIds ch' nI' fI' h
    rw [Channel.merge_entries] at h
    simp only [Except.ok.injEq, Prod.mk.injEq] at h
    obtain ⟨rfl, rfl, rfl⟩ := h
    exact ⟨rfl, rfl, rfl, rfl, rfl, by simp [snapshotIds], fun i hi => hi,
      fun i hi => by simp [snapshotIds] at hi⟩
  | cons e rest ih =>
    intro ch newIds feedIds ch' nI' fI' h
    rw [Channel.merge_entries] at h
    cases hres : resolve_entry_id ch.url hash e with
    | error u => rw [hres] at h; cases h
    | ok o =>
      cases o with
      | none =>
        rw [hres] at h
        obtain ⟨h1, h2, h3, h4, h5, h6, h7, h8⟩ := ih ch newIds feedIds ch' nI' fI' h
        refine ⟨h1, h2, h3, h4, h5, ?_, h7, ?_⟩
        · rw [h6]; simp [snapshotIds, List.filterMap_cons, hres]
        · intro i hi
          apply h8
          simpa [snapshotIds, List.filterMap_cons, hres] using hi
      | some eid =>
        rw [hres] at h
        obtain ⟨h1, h2, h3, h4, h5, h6, h7, h8⟩ := ih _ _ _ _ _ _ h
        have hid := entry_item_id nfi ch eid e (feedIds ++ [eid]).length
        refine ⟨h1, h2, h3, h4, h5, ?_, ?_, ?_⟩
        · rw [h6]; simp [snapshotIds, List.filterMap_cons, hres]
        · intro i hi
          exact h7 i (upsert_preserves_id _ _ _ hi)
        · intro i hi
          simp only [snapshotIds, List.filterMap_cons, hres] at hi
          rcases List.mem_cons.mp hi with rfl | hi
        
          · apply h7
            obtain ⟨x, hx, hxid⟩ := upsert_mem_id ch._items
              (Channel.entry_item nfi ch i e (feedIds ++ [i]).length)
            exact ⟨x, hx, by rw [hxid, entry_item_id]⟩
          · exact h8 i (by simpa [snapshotIds] using hi)

theorem expire_scan_not_mem (feedIds : List String) (fc : Nat) (l : List NewsItem)
    (it : NewsItem) (h : it ∈ expire_scan feedIds fc l) :
    feedIds.contains it.id = false := by
  induction l generalizing fc with
  | nil => simp [expire_scan] at h
  | cons x rest ih =>
    rw [expire_scan] at h
    by_cases h1 : fc < 1
    · rw [if_pos h1] at h; simp at h
    · rw [if_neg h1] at h
      by_cases h2 : feedIds.contains x.id = true
      · rw [if_pos h2] at h
        exact ih _ h
      · rw [if_neg h2] at h
        rcases List.mem_cons.mp h with rfl | h3
        · exact Bool.eq_false_iff.mpr h2
        · exact ih _ h3

theorem assign_fold_frame (l : List String) :
    ∀ ch : Channel,
      (l.foldl Channel.assign_step ch).url = ch.url ∧
      (l.foldl Channel.assign_step ch).updated = ch.updated ∧
      (l.foldl Channel.assign_step ch).last_updated = ch.last_updated ∧
      (l.foldl Channel.assign_step ch)._expired = ch._expired ∧
      (l.foldl Channel.assign_step ch)._items.map NewsItem.id = ch._items.map NewsItem.id := by
  induction l with
  | nil => intro ch; exact ⟨rfl, rfl, rfl, rfl, rfl⟩
  | cons a rest ih =>
    intro ch
    obtain ⟨h1, h2, h3, h4, h5⟩ := ih (Channel.assign_step ch a)
    refine ⟨h1, h2, h3, h4, ?_⟩
    rw [List.foldl_cons, h5]
    simp only [Channel.assign_step, List.map_map]
    apply List.map_congr_left
    intro x hx
    by_cases hc : (x.id == a) = true
    · simp [Function.comp, hc]
    · simp [Function.comp, hc]

theorem assign_orders_frame (ch : Channel) (newIds : List String) :
    (Channel.assign_orders ch newIds).url = ch.url ∧
    (Channel.assign_orders ch newIds).updated = ch.updated ∧
    (Channel.assign_orders ch newIds).last_updated = ch.last_updated ∧
    (Channel.assign_orders ch newIds)._expired = ch._expired ∧
    (Channel.assign_orders ch newIds)._items.map NewsItem.id = ch._items.map NewsItem.id :=
  assign_fold_frame newIds.reverse ch

theorem update_entries_stages (nfi : Nat) (hash : String → String) (now : Int)
    (entries : List Entry) (ch ch' : Channel) (hne : entries.length ≠ 0)
    (h : Channel.update_entries nfi hash now entries ch = .ok ch') :
    ∃ chm nI fI,
      Channel.merge_entries nfi hash entries
          { ch with last_updated := ch.updated, updated := some now } [] [] =
        .ok (chm, nI, fI) ∧
      ch' = Channel.check_expired (Channel.assign_orders chm nI) fI := by
  rw [Channel.update_entries, if_neg hne] at h
  cases hm : Channel.merge_entries nfi hash entries
      { ch with last_updated := ch.updated, updated := some now } [] [] with
  | error u => rw [hm] at h; cases h
  | ok t =>
    obtain ⟨chm, nI, fI⟩ := t
    rw [hm] at h
    exact ⟨chm, nI, fI, rfl, (Except.ok.inj h).symm⟩

/-- C9: an item whose id appears among the snapshot's resolved ids is present
in the channel after reconciliation and is never expired by it (neither
removed from the active collection nor queued for deletion), regardless of
its position in the expiry scan. -/
theorem expiry_conservative (nfi : Nat) (hash : String → String) (now : Int)
    (entries : List Entry) (ch ch' : Channel)
    (h : Channel.update_entries nfi hash now entries ch = .ok ch')
    (i : String) (hi : i ∈ snapshotIds ch.url hash entries) :
    (∃ it, it ∈ ch'._items ∧ it.id = i) ∧
    (∀ it, it ∈ ch'._expired → it.id = i → it ∈ ch._expired) := by
  have hne : entries.length ≠ 0 := by
    intro h0
    rw [List.length_eq_zero] at h0
    subst h0
    simp [snapshotIds] at hi
  obtain ⟨chm, nI, fI, hm, rfl⟩ := update_entries_stages nfi hash now entries ch ch' hne h
  obtain ⟨hu, _, _, _, hexp, hfI, _, hpres⟩ := merge_entries_spec nfi hash entries _ _ _ _ _ _ hm
  rw [show ({ ch with last_updated := ch.updated, updated := some now } : Channel).url = ch.url
    from rfl] at hu hfI hpres
  have hiI : i ∈ fI := by rw [hfI]; simpa using hi
  obtain ⟨ha1, ha2, ha3, ha4, ha5⟩ := assign_orders_frame chm nI
  have hcontains : fI.contains i = true := List.elem_iff.mpr hiI
  -- the id is present after order assignment
  have hpresA : ∃ x, x ∈ (Channel.assign_orders chm nI)._items ∧ x.id = i := by
    obtain ⟨x, hx, hxid⟩ := hpres i hi
    have : i ∈ (Channel.assign_orders chm nI)._items.map NewsItem.id := by
      rw [ha5]
      exact List.mem_map.mpr ⟨x, hx, hxid⟩
    obtain ⟨y, hy, hyid⟩ := List.mem_map.mp this
    exact ⟨y, hy, hyid⟩
  constructor
  · -- survives the expiry filter
    obtain ⟨x, hx, hxid⟩ := hpresA
    refine ⟨x, ?_, hxid⟩
    simp only [Channel.check_expired]
    rw [List.mem_filter]
    refine ⟨hx, ?_⟩
    rw [Bool.not_eq_eq_eq_not, Bool.not_true]
    by_cases hmem : x.id ∈ (expire_scan fI fI.length ((Channel.assign_orders chm nI).items false true)).map NewsItem.id
    · obtain ⟨y, hy, hyid⟩ := List.mem_map.mp hmem
      have := expire_scan_not_mem fI fI.length _ y hy
      rw [hyid, hxid] at this
      rw [hcontains] at this
      cases this
    · exact Bool.eq_false_iff.mpr (fun hc => hmem (List.elem_iff.mp (by exact hc)))
  · -- never newly expired
    intro it hit hitid
    simp only [Channel.check_expired, List.mem_append] at hit
    rcases hit with hit | hit
    · rw [ha4, hexp] at hit
      exact hit
    · have := expire_scan_not_mem fI fI.length _ it hit
      rw [hitid, hcontains] at this
      cases this

/-- C9 witness: reconciling a fresh channel with the snapshot `[idEntry "x"]`
keeps the item with id "x" and expires nothing. -/
theorem expiry_conservative_witness :
    (∃ it, it ∈ c9result._items ∧ it.id = "x") ∧
      (∀ it, it ∈ c9result._expired → it.id = "x" → it ∈ (freshChannel "u")._expired) :=
  expiry_conservative 2 (fun s => s) 100 [idEntry "x"] (freshChannel "u") c9result rfl
    "x" (by simp [snapshotIds, resolve_entry_id, idEntry, utf8])

theorem matchCount_nil (feedIds : List String) : matchCount feedIds [] = 0 := rfl

theorem matchCount_cons (feedIds : List String) (z : NewsItem) (l : List NewsItem) :
    matchCount feedIds (z :: l) =
      (if feedIds.contains z.id then 1 else 0) + matchCount feedIds l := by
  by_cases h : feedIds.contains z.id = true
  · have hm : z.id ∈ feedIds := List.elem_iff.mp h
    simp [matchCount, List.filter_cons, hm, Nat.add_comm]
  · have hm : ¬ z.id ∈ feedIds := fun hmem => h (List.elem_iff.mpr hmem)
    simp [matchCount, List.filter_cons, hm, h]

theorem expire_scan_subset (feedIds : List String) (fc : Nat) (l : List NewsItem)
    (x : NewsItem) (h : x ∈ expire_scan feedIds fc l) : x ∈ l := by
  induction l generalizing fc with
  | nil => simp [expire_scan] at h
  | cons z rest ih =>
    rw [expire_scan] at h
    by_cases h1 : fc < 1
    · rw [if_pos h1] at h; simp at h
    · rw [if_neg h1] at h
      by_cases h2 : feedIds.contains z.id = true
      · rw [if_pos h2] at h
        exact List.mem_cons_of_mem _ (ih _ h)
      · rw [if_neg h2] at h
        rcases List.mem_cons.mp h with rfl | h3
        · exact List.mem_cons_self _ _
        · exact List.mem_cons_of_mem _ (ih _ h3)

/-- Declarative characterization of the expiry scan on a scan list with
distinct ids: an item is expired exactly when its id is not among the
snapshot ids and the number of snapshot-id matches strictly before it in the
scan is still below the budget. -/
theorem expire_scan_mem_iff (feedIds : List String) (b : Nat) (l : List NewsItem)
    (hnd : (l.map NewsItem.id).Nodup) (x : NewsItem) :
    x ∈ expire_scan feedIds b l ↔
      x ∈ l ∧ feedIds.contains x.id = false ∧
        matchCount feedIds (l.takeWhile (fun y => y.id != x.id)) < b := by
  induction l generalizing b with
  | nil => simp [expire_scan]
  | cons z rest ih =>
    have hndr : (rest.map NewsItem.id).Nodup := by
      simpa using hnd.of_cons
    have hzid : z.id ∉ rest.map NewsItem.id := by
      intro hmem
      exact (List.nodup_cons.mp (by simpa using hnd)).1 hmem
    rw [expire_scan]
    by_cases h1 : b < 1
    · rw [if_pos h1]
      have hb : b = 0 := by omega
      subst hb
      simp
    · rw [if_neg h1]
      by_cases h2 : feedIds.contains z.id = true
      · rw [if_pos h2]
        by_cases hxz : x.id = z.id
        · constructor
          · intro hmem
            have := expire_scan_not_mem feedIds (b - 1) rest x hmem
            rw [hxz, h2] at this
            cases this
          · rintro ⟨-, hcf, -⟩
            rw [hxz, h2] at hcf
            cases hcf
        · have htw : (z :: rest).takeWhile (fun y => y.id != x.id) =
              z :: rest.takeWhile (fun y => y.id != x.id) := by
            rw [List.takeWhile_cons]
            simp only [bne_iff_ne, ne_eq]
            rw [if_pos (fun he => hxz (he.symm))]
          rw [ih (b - 1) hndr, htw, matchCount_cons, if_pos h2]
          constructor
          · rintro ⟨hmem, hcf, hcnt⟩
            exact ⟨List.mem_cons_of_mem _ hmem, hcf, by omega⟩
          · rintro ⟨hmem, hcf, hcnt⟩
            rcases List.mem_cons.mp hmem with rfl | hmem
            · exact absurd rfl hxz
            · exact ⟨hmem, hcf, by omega⟩
      · rw [if_neg h2]
        have h2f : feedIds.contains z.id = false := Bool.eq_false_iff.mpr h2
        by_cases hxz : x.id = z.id
        · constructor
          · intro hmem
            rcases List.mem_cons.mp hmem with rfl | hmem
            · refine ⟨List.mem_cons_self _ _, h2f, ?_⟩
              have htw0 : (x :: rest).takeWhile (fun y => y.id != x.id) = [] := by
                rw [List.takeWhile_cons]; simp
              rw [htw0, matchCount_nil]
              omega
            · have hsub := expire_scan_subset feedIds b rest x hmem
              exact absurd (List.mem_map.mpr ⟨x, hsub, hxz⟩) hzid
          · rintro ⟨hmem, hcf, hcnt⟩
            rcases List.mem_cons.mp hmem with rfl | hmem
            · exact List.mem_cons_self _ _
            · exact absurd (List.mem_map.mpr ⟨x, hmem, hxz⟩) hzid
        · have htw : (z :: rest).takeWhile (fun y => y.id != x.id) =
              z :: rest.takeWhile (fun y => y.id != x.id) := by
            rw [List.takeWhile_cons]
            simp only [bne_iff_ne, ne_eq]
            rw [if_pos (fun he => hxz (he.symm))]
          have hxnez : x ≠ z := fun he => hxz (he ▸ rfl)
          rw [htw, matchCount_cons, if_neg h2]
          simp only [List.mem_cons]
          constructor
          · rintro (rfl | hmem)
            · exact absurd rfl hxnez
            · obtain ⟨hm, hc, hcnt⟩ := (ih b hndr).mp hmem
              exact ⟨Or.inr hm, hc, by omega⟩
          · rintro ⟨rfl | hmem, hcf, hcnt⟩
            · exact absurd rfl hxnez
            · exact Or.inr ((ih b hndr).mpr ⟨hmem, hcf, by omega⟩)

theorem items_subset (ch : Channel) (hb sb : Bool) (x : NewsItem)
    (h : x ∈ ch.items hb sb) : x ∈ ch._items := by
  unfold Channel.items at h
  cases sb with
  | false => simp only [Bool.false_eq_true, if_false] at h; exact List.mem_of_mem_filter h
  | true =>
    simp only [if_true] at h
    exact List.mem_of_mem_filter ((sortDesc_perm _).mem_iff.mp h)

theorem items_map_id_nodup (ch : Channel) (hb sb : Bool)
    (hnd : (ch._items.map NewsItem.id).Nodup) :
    ((ch.items hb sb).map NewsItem.id).Nodup := by
  have hfil : ((ch._items.filter (fun it => hb || it.hidden.isNone)).map NewsItem.id).Nodup :=
    ((List.filter_sublist _).map NewsItem.id).nodup hnd
  unfold Channel.items
  cases sb with
  | false => simpa using hfil
  | true =>
    simp only [if_true]
    exact (((sortDesc_perm _).map NewsItem.id).nodup_iff).mpr hfil

/-- C1 (amended): after the entries merge and order assignment, the channel's
*non-hidden* items are scanned in descending (date, order) order with a
remaining-match budget initialized to the number of entries that resolved to
an id (`feed_items`); a scanned item whose id is in the snapshot-id set
consumes one unit of budget; a scanned item reached while the budget is
*still positive* whose id is not in the snapshot-id set is expired: removed
from the active item collection and queued for deletion from persistent
storage; scanning stops once the budget reaches zero and items reached after
exhaustion are retained. -/
theorem expiry_rule (nfi : Nat) (hash : String → String) (now : Int)
    (entries : List Entry) (ch ch' chm : Channel) (nI fI : List String)
    (hne : entries.length ≠ 0)
    (h : Channel.update_entries nfi hash now entries ch = .ok ch')
    (hm : Channel.merge_entries nfi hash entries
        { ch with last_updated := ch.updated, updated := some now } [] [] = .ok (chm, nI, fI))
    (hnd : ((Channel.assign_orders chm nI)._items.map NewsItem.id).Nodup) :
    fI = snapshotIds ch.url hash entries ∧
    (∀ x, x ∈ ch'._expired ↔ x ∈ ch._expired ∨
      (x ∈ (Channel.assign_orders chm nI).items false true ∧
        fI.contains x.id = false ∧
        matchCount fI (((Channel.assign_orders chm nI).items false true).takeWhile
          (fun y => y.id != x.id)) < fI.length)) ∧
    (∀ x, x ∈ (Channel.assign_orders chm nI)._items →
      (x ∈ ch'._items ↔
        ¬(x ∈ (Channel.assign_orders chm nI).items false true ∧
          fI.contains x.id = false ∧
          matchCount fI (((Channel.assign_orders chm nI).items false true).takeWhile
            (fun y => y.id != x.id)) < fI.length))) := by
  obtain ⟨chm', nI', fI', hm', hres⟩ := update_entries_stages nfi hash now entries ch ch' hne h
  rw [hm] at hm'
  obtain ⟨h1, h2⟩ := Prod.mk.injEq .. ▸ (Except.ok.inj hm')
  obtain ⟨h2, h3⟩ := Prod.mk.injEq .. ▸ h2
  subst h1; subst h2; subst h3
  obtain ⟨hu, _, _, _, hexp, hfI, _, _⟩ := merge_entries_spec nfi hash entries _ _ _ _ _ _ hm
  have hfIsnap : fI = snapshotIds ch.url hash entries := by
    rw [hfI]
    rfl
  obtain ⟨_, _, _, ha4, _⟩ := assign_orders_frame chm nI
  have hndscan : (((Channel.assign_orders chm nI).items false true).map NewsItem.id).Nodup :=
    items_map_id_nodup _ false true hnd
  have hexpired : (Channel.assign_orders chm nI)._expired = ch._expired := by
    rw [ha4, hexp]
  subst hres
  refine ⟨hfIsnap, ?_, ?_⟩
  · intro x
    simp only [Channel.check_expired, List.mem_append, hexpired]
    rw [expire_scan_mem_iff fI fI.length _ hndscan x]
  · intro x hx
    simp only [Channel.check_expired, List.mem_filter]
    rw [← expire_scan_mem_iff fI fI.length _ hndscan x]
    constructor
    · rintro ⟨-, hkeep⟩ hscan
      have : x.id ∈ (expire_scan fI fI.length
          ((Channel.assign_orders chm nI).items false true)).map NewsItem.id :=
        List.mem_map.mpr ⟨x, hscan, rfl⟩
      rw [Bool.not_eq_eq_eq_not, Bool.not_true] at hkeep
      rw [Bool.eq_false_iff] at hkeep
      exact hkeep (List.elem_iff.mpr this)
    · intro hnotin
      refine ⟨hx, ?_⟩
      rw [Bool.not_eq_eq_eq_not, Bool.not_true, Bool.eq_false_iff]
      intro hcont
      obtain ⟨y, hy, hyid⟩ := List.mem_map.mp (List.elem_iff.mp hcont)
      have hyitems : y ∈ (Channel.assign_orders chm nI)._items :=
        items_subset _ false true y (expire_scan_subset _ _ _ y hy)
      have : y = x := List.inj_on_of_nodup_map hnd hyitems hx hyid
      subst this
      exact hnotin hy

/-- C1 witness: reconciling `c1chan` with the single-entry snapshot
`[idEntry "B"]` expires exactly the newest item "A" — it is reached with the
budget (1) still positive and is not in the snapshot-id set — and keeps "B". -/
theorem expiry_rule_witness :
    c1itemA ∈ c1result._expired ∧ c1itemB ∈ c1result._items ∧ c1itemA ∉ c1result._items := by
  obtain ⟨hfI, hexp, hitems⟩ :=
    expiry_rule 2 (fun s => s) 30 [idEntry "B"] c1chan c1result c1chm [] ["B"]
      (by decide) rfl rfl (by decide)
  refine ⟨?_, ?_, ?_⟩
  · exact (hexp c1itemA).mpr (Or.inr ⟨by decide, by decide, by decide⟩)
  · exact ((hitems c1itemB (by decide)).mpr (by decide))
  · intro hmem
    have := (hitems c1itemA (by decide)).mp hmem
    exact this ⟨by decide, by decide, by decide⟩

/-- C1 counterexample: the first scenario shows the code expires the newest
item "A" *before* any budget is consumed, while the claim's literal rule
(expire only items reached after the budget is exhausted, `claimC1Expire`)
expires nothing on the same scan; the second scenario shows the budget is the
number of identified entries (1), not the snapshot's entry count (2): with
the claim's budget of 2 the non-member "C" would be reached with budget
still positive (and expired under the actual expiry direction), yet the code
retains it. -/
theorem expiry_rule_counterexample :
    Channel.update_entries 2 (fun s => s) 30 [idEntry "B"] c1chan = .ok c1result ∧
    c1result._expired = [c1itemA] ∧
    Channel.items c1chm false true = [c1itemA, c1itemB] ∧
    claimC1Expire ["B"] 1 (Channel.items c1chm false true) = [] ∧
    Channel.update_entries 2 (fun s => s) 30 [idEntry "B", Entry.empty] c1bchan =
      .ok c1bresult ∧
    c1bresult._expired = [] ∧
    expire_scan ["B"] 2 (Channel.items c1bresult false true) = [c1bitemC] := by
  refine ⟨rfl, rfl, by decide, by decide, rfl, rfl, by decide⟩

theorem itemLe_time_le {a b : NewsItem} (h : itemLe a b) : a.sortTime ≤ b.sortTime := by
  rcases h with h | ⟨h, -⟩
  · exact le_of_lt h
  · exact le_of_eq h

theorem maxDaysTrunc_prefix (cutoff : Int) (l : List NewsItem) :
    ∃ t, l = maxDaysTrunc cutoff l ++ t := by
  induction l with
  | nil => exact ⟨[], rfl⟩
  | cons z rest ih =>
    rw [maxDaysTrunc]
    by_cases hz : cutoff < z.sortTime
    · obtain ⟨t, ht⟩ := ih
      rw [if_pos hz]
      exact ⟨t, by rw [List.cons_append, ← ht]⟩
    · rw [if_neg hz]
      exact ⟨z :: rest, rfl⟩

theorem maxDaysTrunc_mem_gt (cutoff : Int) (l : List NewsItem) (x : NewsItem)
    (h : x ∈ maxDaysTrunc cutoff l) : cutoff < x.sortTime := by
  induction l with
  | nil => simp [maxDaysTrunc] at h
  | cons z rest ih =>
    rw [maxDaysTrunc] at h
    by_cases hz : cutoff < z.sortTime
    · rw [if_pos hz] at h
      rcases List.mem_cons.mp h with rfl | h
      · exact hz
      · exact ih h
    · rw [if_neg hz] at h
      simp at h

theorem maxDaysTrunc_mem_of_gt (cutoff : Int) (l : List NewsItem)
    (hs : l.Sorted (fun a b => itemLe b a)) (x : NewsItem)
    (hx : x ∈ l) (hgt : cutoff < x.sortTime) : x ∈ maxDaysTrunc cutoff l := by
  induction l with
  | nil => simp at hx
  | cons z rest ih =>
    rw [maxDaysTrunc]
    rcases List.mem_cons.mp hx with rfl | hx
    · rw [if_pos hgt]
      exact List.mem_cons_self _ _
    · by_cases hz : cutoff < z.sortTime
      · rw [if_pos hz]
        exact List.mem_cons_of_mem _ (ih (List.Sorted.of_cons hs) hx)
      · exfalso
        have hle : itemLe x z := (List.sorted_cons.mp hs).1 x hx
        have := itemLe_time_le hle
        omega

/-- C8: on the sorted aggregate view, `max_items = k` is a prefix truncation
returning exactly `min k |eligible|` items, newest-first; `max_days = d`
computes the cutoff `newest.sortTime - d * 84600` and keeps the initial run
of items strictly after it: the result is a prefix of the sorted view that
contains every eligible item strictly within `d * 84600` seconds of the
newest and consists only of such items. -/
theorem aggregate_windowing (p : Planet) :
    (∀ k : Nat, k ≠ 0 →
      (Planet.items p false true k 0).length = min k (p.eligibleItems false).length ∧
      Planet.items p false true k 0 = (sortDesc (p.eligibleItems false)).take k ∧
      (Planet.items p false true k 0).Sorted (fun a b => itemLe b a)) ∧
    (∀ d : Nat, d ≠ 0 → ∀ top rest, sortDesc (p.eligibleItems false) = top :: rest →
      (∃ t, sortDesc (p.eligibleItems false) = Planet.items p false true 0 d ++ t) ∧
      (∀ x, x ∈ p.eligibleItems false →
        top.sortTime - (d : Int) * 84600 < x.sortTime →
        x ∈ Planet.items p false true 0 d) ∧
      (∀ x, x ∈ Planet.items p false true 0 d →
        top.sortTime - (d : Int) * 84600 < x.sortTime)) := by
  constructor
  · intro k hk
    have hres : Planet.items p false true k 0 = (sortDesc (p.eligibleItems false)).take k := by
      simp only [Planet.items, if_true]
      rw [if_neg (by intro hc; exact hc.2 rfl)]
      by_cases h0 : (sortDesc (p.eligibleItems false)).length = 0
      · rw [if_neg (by intro hc; exact hc.1 h0)]
        rw [List.length_eq_zero.mp h0]
        simp
      · rw [if_pos ⟨h0, hk⟩]
    refine ⟨?_, hres, ?_⟩
    · rw [hres, List.length_take]
      congr 1
      exact ((sortDesc_perm _).length_eq)
    · rw [hres]
      exact List.Pairwise.sublist (List.take_sublist _ _) (sortDesc_sorted _)
  · intro d hd top rest hS
    have hlen : (sortDesc (p.eligibleItems false)).length ≠ 0 := by
      rw [hS]; simp
    have hres : Planet.items p false true 0 d =
        maxDaysTrunc (top.sortTime - (d : Int) * 84600) (top :: rest) := by
      simp only [Planet.items, if_true]
      have hinner : (if ((sortDesc (p.eligibleItems false)).length ≠ 0 ∧ (0 : Nat) ≠ 0)
          then (sortDesc (p.eligibleItems false)).take 0
          else sortDesc (p.eligibleItems false)) = sortDesc (p.eligibleItems false) :=
        if_neg (by intro hc; exact hc.2 rfl)
      rw [hinner, if_pos ⟨hlen, hd⟩, hS]
    have hsorted : (top :: rest).Sorted (fun a b => itemLe b a) := by
      rw [← hS]; exact sortDesc_sorted _
    refine ⟨?_, ?_, ?_⟩
    · obtain ⟨t, ht⟩ := maxDaysTrunc_prefix (top.sortTime - (d : Int) * 84600) (top :: rest)
      exact ⟨t, by rw [hS, hres, ← ht]⟩
    · intro x hx hgt
      rw [hres]
      refine maxDaysTrunc_mem_of_gt _ _ hsorted x ?_ hgt
      rw [← hS]
      exact (sortDesc_perm _).mem_iff.mpr hx
    · intro x hx
      rw [hres] at hx
      exact maxDaysTrunc_mem_gt _ _ x hx

/-- C8 witness: the concrete three-item planet; `max_items = 2` returns
min 2 3 items and `max_days = 1` keeps exactly the items strictly within
84600 seconds of the newest. -/
theorem aggregate_windowing_witness :
    (Planet.items c8planet false true 2 0).length = min 2 (c8planet.eligibleItems false).length ∧
    Planet.items c8planet false true 2 0 = [c8item1, c8item2] ∧
    (∀ x, x ∈ Planet.items c8planet false true 0 1 →
      c8item1.sortTime - (1 : Int) * 84600 < x.sortTime) ∧
    c8item2 ∈ Planet.items c8planet false true 0 1 := by
  obtain ⟨h1, h2, h3⟩ := (aggregate_windowing c8planet).1 2 (by decide)
  obtain ⟨h4, h5, h6⟩ := (aggregate_windowing c8planet).2 1 (by decide) c8item1
    [c8item2, c8item3] (by decide)
  refine ⟨h1, ?_, h6, ?_⟩
  · rw [h2]; decide
  · exact h5 c8item2 (by decide) (by decide)

theorem get_date_hidden (u lu : Option Int) (it : NewsItem) :
    ((NewsItem.get_date u lu it).2).hidden = it.hidden := by
  cases hd : it.date <;> simp [NewsItem.get_date, hd]

theorem update_item_hidden (u lu : Option Int) (it : NewsItem) (e : Entry) :
    (NewsItem.update u lu it e).hidden = it.hidden := by
  obtain ⟨idf, lnk, ttl, smr, mo, iss, cr⟩ := e
  rcases ttl with _ | (t₁ | _) <;> rcases lnk with _ | (l₁ | _) <;>
    rcases smr with _ | (s₁ | _) <;> rcases mo with _ | m₁ <;>
    rcases iss with _ | i₁ <;> rcases cr with _ | c₁ <;>
    simp [NewsItem.update, utf8, get_date_hidden]

theorem entry_item_hidden_new (nfi : Nat) (ch : Channel) (eid : String) (e : Entry)
    (cnt : Nat) (hlu : ch.last_updated = none) (hnfi : nfi ≠ 0)
    (hfind : find_item ch._items eid = none) :
    (Channel.entry_item nfi ch eid e cnt).hidden =
      (if cnt > nfi then some "yes" else none) := by
  simp only [Channel.entry_item, hfind]
  by_cases hc : cnt > nfi
  · rw [if_pos ⟨hlu, hnfi, hc⟩, if_pos hc]
  · rw [if_neg (by rintro ⟨-, -, hcc⟩; exact hc hcc), if_neg hc]
    simp [update_item_hidden, newNewsItem]

theorem mem_upsert {y : NewsItem} {its : List NewsItem} {it : NewsItem}
    (h : y ∈ upsert_item its it) : y = it ∨ y ∈ its := by
  unfold upsert_item at h
  split at h
  · obtain ⟨x, hx, hxy⟩ := List.mem_map.mp h
    by_cases he : (x.id == it.id) = true
    · rw [if_pos he] at hxy; exact Or.inl hxy.symm
    · rw [if_neg he] at hxy; exact Or.inr (hxy ▸ hx)
  · rcases List.mem_append.mp h with h | h
    · exact Or.inr h
    · exact Or.inl (List.mem_singleton.mp h)

theorem mem_upsert_of_ne {x : NewsItem} {its : List NewsItem} {it : NewsItem}
    (hx : x ∈ its) (hne : x.id ≠ it.id) : x ∈ upsert_item its it := by
  unfold upsert_item
  split
  · exact List.mem_map.mpr ⟨x, hx, by rw [if_neg (by simp [hne])]⟩
  · exact List.mem_append_left _ hx

theorem upsert_eq_append {its : List NewsItem} {it : NewsItem}
    (hf : find_item its it.id = none) : upsert_item its it = its ++ [it] := by
  unfold upsert_item
  rw [show (its.find? (fun x => x.id == it.id)) = none from hf]
  rfl

theorem find_item_append_none {l : List NewsItem} {x : NewsItem} {i : String}
    (h1 : find_item l i = none) (h2 : x.id ≠ i) : find_item (l ++ [x]) i = none := by
  unfold find_item at h1 ⊢
  rw [List.find?_eq_none] at h1 ⊢
  intro y hy
  rcases List.mem_append.mp hy with hy | hy
  · exact h1 y hy
  · rw [List.mem_singleton.mp hy]
    simp [h2]

theorem merge_preserves (nfi : Nat) (hash : String → String) (es : List Entry) :
    ∀ (ch : Channel) (newIds feedIds : List String) (ch' : Channel) (nI' fI' : List String),
      Channel.merge_entries nfi hash es ch newIds feedIds = .ok (ch', nI', fI') →
      ∀ x, x ∈ ch._items → x.id ∉ snapshotIds ch.url hash es → x ∈ ch'._items := by
  induction es with
  | nil =>
    intro ch newIds feedIds ch' nI' fI' h x hx _
    rw [Channel.merge_entries] at h
    simp only [Except.ok.injEq, Prod.mk.injEq] at h
    obtain ⟨rfl, -, -⟩ := h
    exact hx
  | cons e rest ih =>
    intro ch newIds feedIds ch' nI' fI' h x hx hnots
    rw [Channel.merge_entries] at h
    cases hres : resolve_entry_id ch.url hash e with
    | error u => rw [hres] at h; cases h
    | ok o =>
      cases o with
      | none =>
        rw [hres] at h
        refine ih ch newIds feedIds ch' nI' fI' h x hx ?_
        simpa [snapshotIds, List.filterMap_cons, hres] using hnots
      | some eid =>
        rw [hres] at h
        have hsnap : snapshotIds ch.url hash (e :: rest) =
            eid :: snapshotIds ch.url hash rest := by
          simp [snapshotIds, List.filterMap_cons, hres]
        rw [hsnap] at hnots
        have hne : x.id ≠ eid := fun hc => hnots (hc ▸ List.mem_cons_self _ _)
        refine ih _ _ _ _ _ _ h x ?_ ?_
        · exact mem_upsert_of_ne hx (by rw [entry_item_id]; exact hne)
        · intro hc
          exact hnots (List.mem_cons_of_mem _ hc)

theorem merge_ids (nfi : Nat) (hash : String → String) (es : List Entry) :
    ∀ (ch : Channel) (newIds feedIds : List String) (ch' : Channel) (nI' fI' : List String),
      Channel.merge_entries nfi hash es ch newIds feedIds = .ok (ch', nI', fI') →
      ∀ x, x ∈ ch'._items →
        x.id ∈ ch._items.map NewsItem.id ∨ x.id ∈ snapshotIds ch.url hash es := by
  induction es with
  | nil =>
    intro ch newIds feedIds ch' nI' fI' h x hx
    rw [Channel.merge_entries] at h
    simp only [Except.ok.injEq, Prod.mk.injEq] at h
    obtain ⟨rfl, -, -⟩ := h
    exact Or.inl (List.mem_map.mpr ⟨x, hx, rfl⟩)
  | cons e rest ih =>
    intro ch newIds feedIds ch' nI' fI' h x hx
    rw [Channel.merge_entries] at h
    cases hres : resolve_entry_id ch.url hash e with
    | error u => rw [hres] at h; cases h
    | ok o =>
      cases o with
      | none =>
        rw [hres] at h
        rcases ih ch newIds feedIds ch' nI' fI' h x hx with hl | hr
        · exact Or.inl hl
        · exact Or.inr (by simpa [snapshotIds, List.filterMap_cons, hres] using hr)
      | some eid =>
        rw [hres] at h
        have hsnap : snapshotIds ch.url hash (e :: rest) =
            eid :: snapshotIds ch.url hash rest := by
          simp [snapshotIds, List.filterMap_cons, hres]
        rw [hsnap]
        rcases ih _ _ _ _ _ _ h x hx with hl | hr
        · obtain ⟨y, hy, hyid⟩ := List.mem_map.mp hl
          rcases mem_upsert hy with rfl | hy2
          · exact Or.inr (by rw [← hyid, entry_item_id]; exact List.mem_cons_self _ _)
          · exact Or.inl (List.mem_map.mpr ⟨y, hy2, hyid⟩)
        · exact Or.inr (List.mem_cons_of_mem _ hr)

theorem expire_scan_all_match (feedIds : List String) (fc : Nat) (l : List NewsItem)
    (hall : ∀ it ∈ l, feedIds.contains it.id = true) :
    expire_scan feedIds fc l = [] := by
  induction l generalizing fc with
  | nil => rfl
  | cons z rest ih =>
    rw [expire_scan]
    by_cases h1 : fc < 1
    · rw [if_pos h1]
    · rw [if_neg h1, if_pos (hall z (List.mem_cons_self _ _))]
      exact ih _ (fun it hit => hall it (List.mem_cons_of_mem _ hit))

theorem assign_fold_pres (l : List String) :
    ∀ (ch : Channel) (x : NewsItem), x ∈ ch._items →
      ∃ x', x' ∈ (l.foldl Channel.assign_step ch)._items ∧ x'.id = x.id ∧
        x'.hidden = x.hidden ∧ x'.date = x.date := by
  induction l with
  | nil => intro ch x hx; exact ⟨x, hx, rfl, rfl, rfl⟩
  | cons a rest ih =>
    intro ch x hx
    rw [List.foldl_cons]
    by_cases he : (x.id == a) = true
    · obtain ⟨x', hx', h1, h2, h3⟩ := ih (Channel.assign_step ch a)
        { x with order := some (natToStr (strToNat ch.next_order + 1)) }
        (by
          simp only [Channel.assign_step]
          exact List.mem_map.mpr ⟨x, hx, by rw [if_pos he]⟩)
      exact ⟨x', hx', h1, h2, h3⟩
    · obtain ⟨x', hx', h1, h2, h3⟩ := ih (Channel.assign_step ch a) x
        (by
          simp only [Channel.assign_step]
          exact List.mem_map.mpr ⟨x, hx, by rw [if_neg he]⟩)
      exact ⟨x', hx', h1, h2, h3⟩

theorem get_zero_of_eq {α : Type} {l l' : List α} {a : α} (h : l = a :: l')
    (hj : 0 < l.length) : l.get ⟨0, hj⟩ = a := by
  subst h; rfl

theorem get_succ_of_eq {α : Type} {l l' : List α} {a : α} (h : l = a :: l') (j : Nat)
    (hj : j + 1 < l.length) (hj' : j < l'.length) :
    l.get ⟨j + 1, hj⟩ = l'.get ⟨j, hj'⟩ := by
  subst h; rfl

theorem merge_hidden (nfi : Nat) (hash : String → String) (es : List Entry) :
    ∀ (ch : Channel) (newIds feedIds : List String) (ch' : Channel) (nI' fI' : List String),
      ch.last_updated = none → nfi ≠ 0 →
      (∀ e ∈ es, ∃ i, resolve_entry_id ch.url hash e = .ok (some i)) →
      (snapshotIds ch.url hash es).Nodup →
      (∀ i, i ∈ snapshotIds ch.url hash es → find_item ch._items i = none) →
      Channel.merge_entries nfi hash es ch newIds feedIds = .ok (ch', nI', fI') →
      ∀ j, (hj : j < (snapshotIds ch.url hash es).length) →
        ∃ it, it ∈ ch'._items ∧ it.id = (snapshotIds ch.url hash es).get ⟨j, hj⟩ ∧
          it.hidden = (if nfi < feedIds.length + j + 1 then some "yes" else none) := by
  induction es with
  | nil =>
    intro ch newIds feedIds ch' nI' fI' _ _ _ _ _ _ j hj
    simp [snapshotIds] at hj
  | cons e rest ih =>
    intro ch newIds feedIds ch' nI' fI' hlu hnfi hres hnd hfresh hmerge j hj
    obtain ⟨i0, hi0⟩ := hres e (List.mem_cons_self _ _)
    have hsnap : snapshotIds ch.url hash (e :: rest) =
        i0 :: snapshotIds ch.url hash rest := by
      simp [snapshotIds, List.filterMap_cons, hi0]
    have hf0 : find_item ch._items i0 = none :=
      hfresh i0 (by rw [hsnap]; exact List.mem_cons_self _ _)
    have hnd' : (snapshotIds ch.url hash rest).Nodup := by
      rw [hsnap] at hnd; exact hnd.of_cons
    have hi0rest : i0 ∉ snapshotIds ch.url hash rest := by
      rw [hsnap] at hnd; exact (List.nodup_cons.mp hnd).1
    rw [Channel.merge_entries, hi0] at hmerge
    dsimp only at hmerge
    have hit0id : (Channel.entry_item nfi ch i0 e (feedIds ++ [i0]).length).id = i0 :=
      entry_item_id nfi ch i0 e (feedIds ++ [i0]).length
    have hups : upsert_item ch._items
        (Channel.entry_item nfi ch i0 e (feedIds ++ [i0]).length) =
        ch._items ++ [Channel.entry_item nfi ch i0 e (feedIds ++ [i0]).length] :=
      upsert_eq_append (by rw [hit0id]; exact hf0)
    have hjlen : j < (i0 :: snapshotIds ch.url hash rest).length := by
      rw [hsnap] at hj; exact hj
    rcases Nat.lt_or_ge j 1 with hj0 | hj1
    · -- j = 0 : the item created for this entry
      have hjz : j = 0 := by omega
      subst hjz
      refine ⟨Channel.entry_item nfi ch i0 e (feedIds ++ [i0]).length, ?_, ?_, ?_⟩
      · refine merge_preserves nfi hash rest _ _ _ _ _ _ hmerge _ ?_ ?_
        · show _ ∈ upsert_item ch._items _
          rw [hups]
          exact List.mem_append_right _ (List.mem_singleton.mpr rfl)
        · show (Channel.entry_item nfi ch i0 e (feedIds ++ [i0]).length).id ∉
            snapshotIds ch.url hash rest
          rw [hit0id]
          exact hi0rest
      · exact hit0id.trans (get_zero_of_eq hsnap hj).symm
      · rw [entry_item_hidden_new nfi ch i0 e _ hlu hnfi hf0]
        exact if_congr
          (by rw [show (feedIds ++ [i0]).length = feedIds.length + 1 from by simp])
          rfl rfl
    · -- j ≥ 1 : comes from the tail
      obtain ⟨j', rfl⟩ : ∃ j', j = j' + 1 := ⟨j - 1, by omega⟩
      have hj' : j' < (snapshotIds ch.url hash rest).length := by
        simp only [List.length_cons] at hjlen
        omega
      obtain ⟨it, hmem, hid, hhid⟩ := ih
        { ch with
            _items := upsert_item ch._items
              (Channel.entry_item nfi ch i0 e (feedIds ++ [i0]).length) }
        _ (feedIds ++ [i0]) ch' nI' fI'
        hlu hnfi
        (fun e' he' => hres e' (List.mem_cons_of_mem _ he'))
        hnd'
        (fun i hi => by
          show find_item (upsert_item ch._items _) i = none
          rw [hups]
          refine find_item_append_none (hfresh i ?_) ?_
          · rw [hsnap]; exact List.mem_cons_of_mem _ hi
          · rw [hit0id]; intro hc; exact hi0rest (hc ▸ hi))
        hmerge j' hj'
      refine ⟨it, hmem, ?_, ?_⟩
      · exact hid.trans (get_succ_of_eq hsnap j' hj hj').symm
      · rw [hhid]
        exact if_congr
          (by
            have hlen : (feedIds ++ [i0]).length = feedIds.length + 1 := by simp
            rw [hlen]
            constructor <;> (intro hcc; omega))
          rfl rfl

/-- C4: on a channel's first-ever reconciliation with entries (`updated` and
`last_updated` unset, no cached items), with a new-feed-item limit N > 0 and
entries whose ids resolve and are distinct, the item created for the j-th
entry (0-based, snapshot order) is marked hidden exactly when j + 1 > N: the
first N snapshot-order items stay visible and all later ones are hidden. -/
theorem first_sight_suppression (nfi : Nat) (hash : String → String) (now : Int)
    (entries : List Entry) (ch ch' : Channel)
    (hempty : ch._items = []) (hupd : ch.updated = none) (hn : 0 < nfi)
    (hres : ∀ e ∈ entries, ∃ i, resolve_entry_id ch.url hash e = .ok (some i))
    (hnd : (snapshotIds ch.url hash entries).Nodup)
    (h : Channel.update_entries nfi hash now entries ch = .ok ch') :
    ∀ j, (hj : j < (snapshotIds ch.url hash entries).length) →
      ∃ it, it ∈ ch'._items ∧ it.id = (snapshotIds ch.url hash entries).get ⟨j, hj⟩ ∧
        it.hidden = (if nfi < j + 1 then some "yes" else none) := by
  by_cases hent : entries.length = 0
  · rw [List.length_eq_zero] at hent
    subst hent
    intro j hj
    simp [snapshotIds] at hj
  · obtain ⟨chm, nI, fI, hm, hrest⟩ := update_entries_stages nfi hash now entries ch ch' hent h
    have hfI : fI = snapshotIds ch.url hash entries :=
      by simpa using (merge_entries_spec nfi hash entries _ _ _ _ _ _ hm).2.2.2.2.2.1
    intro j hj
    obtain ⟨it, hmem, hid, hhid⟩ := merge_hidden nfi hash entries
      { ch with last_updated := ch.updated, updated := some now } [] [] chm nI fI
      (by simpa using hupd) (by omega) hres hnd
      (fun i _ => by
        show find_item ch._items i = none
        rw [hempty]
        rfl)
      hm j hj
    obtain ⟨it', hmem', hid', hhid', _⟩ := assign_fold_pres nI.reverse chm it hmem
    have hall : ∀ y ∈ (Channel.assign_orders chm nI).items false true,
        fI.contains y.id = true := by
      intro y hy
      have hyA : y ∈ (Channel.assign_orders chm nI)._items := items_subset _ false true y hy
      have hyid : y.id ∈ (Channel.assign_orders chm nI)._items.map NewsItem.id :=
        List.mem_map.mpr ⟨y, hyA, rfl⟩
      rw [(assign_orders_frame chm nI).2.2.2.2] at hyid
      obtain ⟨z, hz, hzid⟩ := List.mem_map.mp hyid
      rcases merge_ids nfi hash entries _ _ _ _ _ _ hm z hz with hl | hr
      · have hl' : z.id ∈ ch._items.map NewsItem.id := hl
        rw [hempty] at hl'
        simp at hl'
      · rw [hfI]
        exact List.elem_iff.mpr (hzid ▸ hr)
    have hexp0 : expire_scan fI fI.length ((Channel.assign_orders chm nI).items false true) =
        [] := expire_scan_all_match fI fI.length _ hall
    have hitems : ch'._items = (Channel.assign_orders chm nI)._items := by
      rw [hrest]
      simp [Channel.check_expired, hexp0]
    refine ⟨it', ?_, hid'.trans hid, hhid'.trans ?_⟩
    · rw [hitems]
      exact hmem'
    · rw [hhid]
      exact if_congr (by simp) rfl rfl

/-- C4 witness: first reconciliation with five entries and limit 2 leaves the
first two items visible and hides the remaining three. -/
theorem first_sight_suppression_witness :
    (∃ it, it ∈ c4result._items ∧ it.id = "e2" ∧ it.hidden = none) ∧
    (∃ it, it ∈ c4result._items ∧ it.id = "e3" ∧ it.hidden = some "yes") := by
  have happ := first_sight_suppression 2 (fun s => s) 100 c4entries (freshChannel "u")
    c4result rfl rfl (by decide)
    (by
      intro e he
      fin_cases he <;> exact ⟨_, rfl⟩)
    (by decide) rfl
  constructor
  · obtain ⟨it, hmem, hid, hhid⟩ := happ 1 (by decide)
    exact ⟨it, hmem, by rw [hid]; rfl, by rw [hhid]; rfl⟩
  · obtain ⟨it, hmem, hid, hhid⟩ := happ 2 (by decide)
    exact ⟨it, hmem, by rw [hid]; rfl, by rw [hhid]; rfl⟩

theorem get_date_order (u lu : Option Int) (it : NewsItem) :
    ((NewsItem.get_date u lu it).2).order = it.order := by
  cases hd : it.date <;> simp [NewsItem.get_date, hd]

theorem update_item_order (u lu : Option Int) (it : NewsItem) (e : Entry) :
    (NewsItem.update u lu it e).order = it.order := by
  obtain ⟨idf, lnk, ttl, smr, mo, iss, cr⟩ := e
  rcases ttl with _ | (t₁ | _) <;> rcases lnk with _ | (l₁ | _) <;>
    rcases smr with _ | (s₁ | _) <;> rcases mo with _ | m₁ <;>
    rcases iss with _ | i₁ <;> rcases cr with _ | c₁ <;>
    simp [NewsItem.update, utf8, get_date_order]

theorem entry_item_order_new (nfi : Nat) (ch : Channel) (eid : String) (e : Entry)
    (cnt : Nat) (hfind : find_item ch._items eid = none) :
    (Channel.entry_item nfi ch eid e cnt).order = none := by
  simp only [Channel.entry_item, hfind]
  split <;> simp [update_item_order, newNewsItem]

theorem entry_item_order_existing (nfi : Nat) (ch : Channel) (eid : String) (e : Entry)
    (cnt : Nat) (y : NewsItem) (hfind : find_item ch._items eid = some y) :
    (Channel.entry_item nfi ch eid e cnt).order = y.order := by
  simp only [Channel.entry_item, hfind]
  split <;> simp [update_item_order]

theorem find_item_none_iff (its : List NewsItem) (i : String) :
    find_item its i = none ↔ i ∉ its.map NewsItem.id := by
  unfold find_item
  rw [List.find?_eq_none]
  constructor
  · intro h hmem
    obtain ⟨y, hy, hyid⟩ := List.mem_map.mp hmem
    exact h y hy (by simp [hyid])
  · intro h y hy hp
    exact h (List.mem_map.mpr ⟨y, hy, by simpa using hp⟩)

theorem upsert_existing_map (its : List NewsItem) (it y : NewsItem)
    (hnd : (its.map NewsItem.id).Nodup)
    (hf : find_item its it.id = some y) (hord : it.order = y.order) :
    (upsert_item its it).map (fun x => (x.id, x.order)) =
      its.map (fun x => (x.id, x.order)) := by
  unfold upsert_item
  rw [if_pos (by rw [show its.find? (fun x => x.id == it.id) = some y from hf]; rfl)]
  rw [List.map_map]
  apply List.map_congr_left
  intro x hx
  by_cases he : (x.id == it.id) = true
  · have hxid : x.id = it.id := by simpa using he
    have hy : y ∈ its := List.mem_of_find?_eq_some hf
    have hyid : y.id = it.id := find_item_id hf
    have hxy : x = y := List.inj_on_of_nodup_map hnd hx hy (by rw [hxid, hyid])
    subst hxy
    simp [Function.comp, he, hord, hxid]
  · simp [Function.comp, he]

theorem merge_shape (nfi : Nat) (hash : String → String) (es : List Entry) :
    ∀ (ch : Channel) (newIds feedIds : List String) (ch' : Channel) (nI' fI' : List String),
      Channel.merge_entries nfi hash es ch newIds feedIds = .ok (ch', nI', fI') →
      (ch._items.map NewsItem.id).Nodup →
      ∃ d : List String, nI' = newIds ++ d ∧ d.Nodup ∧
        (∀ i ∈ d, i ∉ ch._items.map NewsItem.id) ∧
        (∀ i ∈ d, i ∈ snapshotIds ch.url hash es) ∧
        ch'._items.map (fun x => (x.id, x.order)) =
          ch._items.map (fun x => (x.id, x.order)) ++
            d.map (fun i => (i, (none : Option String))) := by
  induction es with
  | nil =>
    intro ch newIds feedIds ch' nI' fI' h hnd
    rw [Channel.merge_entries] at h
    simp only [Except.ok.injEq, Prod.mk.injEq] at h
    obtain ⟨rfl, rfl, rfl⟩ := h
    exact ⟨[], by simp, List.nodup_nil, by simp, by simp, by simp⟩
  | cons e rest ih =>
    intro ch newIds feedIds ch' nI' fI' h hnd
    rw [Channel.merge_entries] at h
    cases hres : resolve_entry_id ch.url hash e with
    | error u => rw [hres] at h; cases h
    | ok o =>
      cases o with
      | none =>
        rw [hres] at h
        obtain ⟨d, h1, h2, h3, h4, h5⟩ := ih ch newIds feedIds ch' nI' fI' h hnd
        exact ⟨d, h1, h2, h3,
          fun i hi => by simpa [snapshotIds, List.filterMap_cons, hres] using h4 i hi, h5⟩
      | some eid =>
        rw [hres] at h
        dsimp only at h
        have hsnapc : snapshotIds ch.url hash (e :: rest) =
            eid :: snapshotIds ch.url hash rest := by
          simp [snapshotIds, List.filterMap_cons, hres]
        cases hfind : find_item ch._items eid with
        | some y =>
          rw [hfind] at h
          dsimp only [Option.isNone] at h
          have hmap : (upsert_item ch._items
              (Channel.entry_item nfi ch eid e (feedIds ++ [eid]).length)).map
                (fun x => (x.id, x.order)) = ch._items.map (fun x => (x.id, x.order)) := by
            refine upsert_existing_map _ _ y hnd ?_ ?_
            · rw [entry_item_id]; exact hfind
            · rw [entry_item_order_existing nfi ch eid e _ y hfind]
          have hidsmap : (upsert_item ch._items
              (Channel.entry_item nfi ch eid e (feedIds ++ [eid]).length)).map NewsItem.id =
              ch._items.map NewsItem.id := by
            have := congrArg (List.map Prod.fst) hmap
            simpa [List.map_map, Function.comp] using this
          obtain ⟨d, h1, h2, h3, h4, h5⟩ := ih _ _ _ _ _ _ h (by rw [hidsmap]; exact hnd)
          rw [if_neg (by decide)] at h1
          refine ⟨d, h1, h2, ?_, ?_, ?_⟩
          · intro i hi
            have := h3 i hi
            rw [hidsmap] at this
            exact this
          · intro i hi
            rw [hsnapc]
            exact List.mem_cons_of_mem _ (h4 i hi)
          · rw [h5, hmap]
        | none =>
          rw [hfind] at h
          dsimp only [Option.isNone] at h
          have hit0id : (Channel.entry_item nfi ch eid e (feedIds ++ [eid]).length).id = eid :=
            entry_item_id _ _ _ _ _
          have hit0ord : (Channel.entry_item nfi ch eid e (feedIds ++ [eid]).length).order =
              none := entry_item_order_new _ _ _ _ _ hfind
          have hups : upsert_item ch._items
              (Channel.entry_item nfi ch eid e (feedIds ++ [eid]).length) =
              ch._items ++ [Channel.entry_item nfi ch eid e (feedIds ++ [eid]).length] :=
            upsert_eq_append (by rw [hit0id]; exact hfind)
          have heidfresh : eid ∉ ch._items.map NewsItem.id :=
            (find_item_none_iff _ _).mp hfind
          have hnd2 : ((ch._items ++
              [Channel.entry_item nfi ch eid e (feedIds ++ [eid]).length]).map
                NewsItem.id).Nodup := by
            rw [List.map_append]
            simp only [List.map_cons, List.map_nil, hit0id]
            rw [List.nodup_append]
            exact ⟨hnd, List.nodup_singleton _, by
              intro a ha hb
              rw [List.mem_singleton.mp hb] at ha
              exact heidfresh ha⟩
          obtain ⟨d, h1, h2, h3, h4, h5⟩ := ih _ _ _ _ _ _ h (by rw [hups]; exact hnd2)
          rw [if_pos rfl] at h1
          refine ⟨eid :: d, ?_, ?_, ?_, ?_, ?_⟩
          · simp [h1]
          · rw [List.nodup_cons]
            refine ⟨?_, h2⟩
            intro hmem
            have h3e : eid ∉ (upsert_item ch._items
                (Channel.entry_item nfi ch eid e (feedIds ++ [eid]).length)).map
                  NewsItem.id := h3 eid hmem
            rw [hups] at h3e
            refine h3e ?_
            rw [List.map_append]
            refine List.mem_append_right _ ?_
            simp only [List.map_cons, List.map_nil, hit0id]
            exact List.mem_singleton.mpr rfl
          · intro i hi
            rcases List.mem_cons.mp hi with rfl | hi
            · exact heidfresh
            · intro hmem
              have := h3 i hi
              rw [hups, List.map_append] at this
              exact this (List.mem_append_left _ hmem)
          · intro i hi
            rw [hsnapc]
            rcases List.mem_cons.mp hi with rfl | hi
            · exact List.mem_cons_self _ _
            · exact List.mem_cons_of_mem _ (h4 i hi)
          · rw [h5, hups, List.map_append]
            simp only [List.map_cons, List.map_nil, hit0id, hit0ord, List.map_cons]
            rw [List.append_assoc]
            rfl

theorem assign_fold_next (l : List String) :
    ∀ ch : Channel, ch.next_order = natToStr (strToNat ch.next_order) →
      (l.foldl Channel.assign_step ch).next_order =
        natToStr (strToNat ch.next_order + l.length) := by
  induction l with
  | nil => intro ch hc; exact hc
  | cons a rest ih =>
    intro ch hc
    rw [List.foldl_cons]
    rw [ih _ (by simp only [Channel.assign_step]; rw [strToNat_natToStr])]
    simp only [Channel.assign_step]
    rw [strToNat_natToStr]
    congr 1
    simp only [List.length_cons]
    omega

theorem assign_fold_keep (l : List String) :
    ∀ (ch : Channel) (x : NewsItem), x ∈ ch._items → x.id ∉ l →
      x ∈ (l.foldl Channel.assign_step ch)._items := by
  induction l with
  | nil => intro ch x hx _; exact hx
  | cons a rest ih =>
    intro ch x hx hni
    rw [List.foldl_cons]
    refine ih _ x ?_ (fun hc => hni (List.mem_cons_of_mem _ hc))
    simp only [Channel.assign_step]
    refine List.mem_map.mpr ⟨x, hx, ?_⟩
    rw [if_neg (by simp; intro hc; exact hni (hc ▸ List.mem_cons_self _ _))]

theorem assign_fold_get (l : List String) :
    ∀ ch : Channel, l.Nodup →
      ∀ p, (hp : p < l.length) → l.get ⟨p, hp⟩ ∈ ch._items.map NewsItem.id →
        ∃ x', x' ∈ (l.foldl Channel.assign_step ch)._items ∧ x'.id = l.get ⟨p, hp⟩ ∧
          x'.order = some (natToStr (strToNat ch.next_order + p + 1)) := by
  induction l with
  | nil => intro ch _ p hp _; simp at hp
  | cons a rest ih =>
    intro ch hnd p hp hmem
    cases p with
    | zero =>
      obtain ⟨x, hx, hxid⟩ := List.mem_map.mp hmem
      rw [List.foldl_cons]
      refine ⟨{ x with order := some (natToStr (strToNat ch.next_order + 1)) }, ?_, ?_, rfl⟩
      · refine assign_fold_keep rest _ _ ?_ ?_
        · simp only [Channel.assign_step]
          refine List.mem_map.mpr ⟨x, hx, ?_⟩
          rw [if_pos (by simp [hxid])]
        · show x.id ∉ rest
          rw [hxid]
          exact (List.nodup_cons.mp hnd).1
      · exact hxid
    | succ p =>
      have hp' : p < rest.length := by simpa using hp
      have hmem' : rest.get ⟨p, hp'⟩ ∈
          (Channel.assign_step ch a)._items.map NewsItem.id := by
        have hids : (Channel.assign_step ch a)._items.map NewsItem.id =
            ch._items.map NewsItem.id := (assign_fold_frame [a] ch).2.2.2.2
        rw [hids]
        exact hmem
      rw [List.foldl_cons]
      obtain ⟨x', hx', hid', hord'⟩ := ih (Channel.assign_step ch a)
        (List.nodup_cons.mp hnd).2 p hp' hmem'
      refine ⟨x', hx', hid', ?_⟩
      rw [hord']
      have hstep : strToNat (Channel.assign_step ch a).next_order =
          strToNat ch.next_order + 1 := by
        simp only [Channel.assign_step]
        rw [strToNat_natToStr]
      rw [hstep]
      rw [show strToNat ch.next_order + 1 + p + 1 =
        strToNat ch.next_order + (p + 1) + 1 from by omega]

theorem assign_fold_attr (l : List String) :
    ∀ ch : Channel, l.Nodup →
      ∀ x', x' ∈ (l.foldl Channel.assign_step ch)._items →
        ∃ x, x ∈ ch._items ∧ x'.id = x.id ∧
          ((x'.order = x.order ∧ x'.id ∉ l) ∨
           ∃ p, ∃ hp : p < l.length, x'.id = l.get ⟨p, hp⟩ ∧
             x'.order = some (natToStr (strToNat ch.next_order + p + 1))) := by
  induction l with
  | nil => intro ch _ x' hx'; exact ⟨x', hx', rfl, Or.inl ⟨rfl, by simp⟩⟩
  | cons a rest ih =>
    intro ch hnd x' hx'
    rw [List.foldl_cons] at hx'
    obtain ⟨x₁, hx₁, hid₁, hcase⟩ := ih (Channel.assign_step ch a)
      (List.nodup_cons.mp hnd).2 x' hx'
    have hx₁' : x₁ ∈ (ch._items.map (fun y =>
        if (y.id == a) = true then
          { y with order := some (natToStr (strToNat ch.next_order + 1)) } else y)) := hx₁
    obtain ⟨x, hx, hxeq⟩ := List.mem_map.mp hx₁'
    by_cases he : (x.id == a) = true
    · have hxa : x.id = a := by simpa using he
      rw [if_pos he] at hxeq
      rcases hcase with ⟨hord, hnotin⟩ | ⟨p, hp, hgetp, hordp⟩
      · have hid : x'.id = x.id := by rw [hid₁, ← hxeq]
        refine ⟨x, hx, hid, Or.inr ⟨0, ?_, ?_, ?_⟩⟩
        · simp
        · rw [hid]
          simpa using hxa
        · rw [hord, ← hxeq]
      · -- x' was assigned a position in rest, but its id is x.id = a ∉ rest
        exfalso
        have : x'.id = a := by rw [hid₁, ← hxeq]; simpa using hxa
        rw [this] at hgetp
        exact (List.nodup_cons.mp hnd).1 (hgetp ▸ List.get_mem rest p hp)
    · rw [if_neg he] at hxeq
      subst hxeq
      rcases hcase with ⟨hord, hnotin⟩ | ⟨p, hp, hgetp, hordp⟩
      · refine ⟨x, hx, hid₁, Or.inl ⟨hord, ?_⟩⟩
        intro hc
        rcases List.mem_cons.mp hc with hc | hc
        · rw [hid₁] at hc
          have hne : ¬ x.id = a := by simpa using he
          exact hne hc
        · exact hnotin hc
      · refine ⟨x, hx, hid₁, Or.inr ⟨p + 1, ?_, ?_, ?_⟩⟩
        · simpa using hp
        · rw [hgetp]
          rfl
        · rw [hordp]
          have hstep : strToNat (Channel.assign_step ch a).next_order =
              strToNat ch.next_order + 1 := by
            simp only [Channel.assign_step]
            rw [strToNat_natToStr]
          rw [hstep]
          rw [show strToNat ch.next_order + 1 + p + 1 =
            strToNat ch.next_order + (p + 1) + 1 from by omega]

/-- C5: newly created items are processed in reverse snapshot order, each
receiving a freshly incremented `next_order`; the numeric value of
`next_order` grows by the number of new items (strictly increasing whenever
an item is created), the order-counter invariant — unique ids, canonical
bounded order numerals, and no two items sharing an order value — is
preserved across a reconciliation, and among items first seen in the same
reconciliation the one later in feed order receives a strictly lower order
number. -/
theorem order_assignment (nfi : Nat) (hash : String → String) (now : Int)
    (entries : List Entry) (ch ch' chm : Channel) (nI fI : List String)
    (hne : entries.length ≠ 0)
    (hinv : OrderInv ch)
    (h : Channel.update_entries nfi hash now entries ch = .ok ch')
    (hm : Channel.merge_entries nfi hash entries
        { ch with last_updated := ch.updated, updated := some now } [] [] =
      .ok (chm, nI, fI)) :
    ch'.next_order = natToStr (strToNat ch.next_order + nI.length) ∧
    strToNat ch.next_order ≤ strToNat ch'.next_order ∧
    (nI ≠ [] → strToNat ch.next_order < strToNat ch'.next_order) ∧
    OrderInv ch' ∧
    (∀ j j' : Nat, ∀ hj : j < nI.length, ∀ hj' : j' < nI.length, j < j' →
      ∃ it it', it ∈ ch'._items ∧ it' ∈ ch'._items ∧
        it.id = nI.get ⟨j, hj⟩ ∧ it'.id = nI.get ⟨j', hj'⟩ ∧
        ∃ n n', it.order = some (natToStr n) ∧ it'.order = some (natToStr n') ∧
          n' < n) := by
  obtain ⟨hinv1, hinv2, hinv3, hinv4⟩ := hinv
  obtain ⟨chm', nI2, fI2, hm', hrest⟩ := update_entries_stages nfi hash now entries ch ch' hne h
  rw [hm] at hm'
  obtain ⟨he1, he2⟩ := Prod.mk.injEq .. ▸ (Except.ok.inj hm')
  obtain ⟨he2, he3⟩ := Prod.mk.injEq .. ▸ he2
  subst he1; subst he2; subst he3
  obtain ⟨d, hd1, hd2, hd3, hd4, hd5⟩ :=
    merge_shape nfi hash entries _ [] [] chm nI fI hm (by exact hinv2)
  rw [List.nil_append] at hd1
  subst hd1
  have hchmnext : chm.next_order = ch.next_order :=
    (merge_entries_spec nfi hash entries _ _ _ _ _ _ hm).2.2.2.1
  have hfIsnap : fI = snapshotIds ch.url hash entries := by
    simpa using (merge_entries_spec nfi hash entries _ _ _ _ _ _ hm).2.2.2.2.2.1
  have hkchm : strToNat chm.next_order = strToNat ch.next_order := by rw [hchmnext]
  have hd5' : chm._items.map (fun x => (x.id, x.order)) =
      ch._items.map (fun x => (x.id, x.order)) ++
        nI.map (fun i => (i, (none : Option String))) := hd5
  have hd3' : ∀ i ∈ nI, i ∉ ch._items.map NewsItem.id := hd3
  have hd4' : ∀ i ∈ nI, i ∈ snapshotIds ch.url hash entries := hd4
  have hidschm : chm._items.map NewsItem.id = ch._items.map NewsItem.id ++ nI := by
    have hmf := congrArg (List.map Prod.fst) hd5'
    rw [List.map_append, List.map_map, List.map_map, List.map_map] at hmf
    rw [show chm._items.map (Prod.fst ∘ fun x => (x.id, x.order)) =
        chm._items.map NewsItem.id from List.map_congr_left (fun x _ => rfl)] at hmf
    rw [show ch._items.map (Prod.fst ∘ fun x => (x.id, x.order)) =
        ch._items.map NewsItem.id from List.map_congr_left (fun x _ => rfl)] at hmf
    rw [show nI.map (Prod.fst ∘ fun i => (i, (none : Option String))) = nI from by
      rw [show (Prod.fst ∘ fun i : String => (i, (none : Option String))) =
        (fun i => i) from rfl]
      exact List.map_id nI] at hmf
    exact hmf
  have hidnodup : (chm._items.map NewsItem.id).Nodup := by
    rw [hidschm, List.nodup_append]
    exact ⟨hinv2, hd2, fun a ha hb => hd3' a hb ha⟩
  have hcanon_chm : chm.next_order = natToStr (strToNat chm.next_order) := by
    rw [hchmnext]; exact hinv1
  have hAnext : (Channel.assign_orders chm nI).next_order =
      natToStr (strToNat ch.next_order + nI.length) := by
    unfold Channel.assign_orders
    rw [assign_fold_next nI.reverse chm hcanon_chm, hkchm, List.length_reverse]
  have hchnext' : ch'.next_order = natToStr (strToNat ch.next_order + nI.length) := by
    rw [hrest]; exact hAnext
  have hroundk : strToNat ch'.next_order = strToNat ch.next_order + nI.length := by
    rw [hchnext', strToNat_natToStr]
  have hsubA : ∀ x, x ∈ ch'._items → x ∈ (Channel.assign_orders chm nI)._items := by
    intro x hx
    rw [hrest] at hx
    simp only [Channel.check_expired] at hx
    exact List.mem_of_mem_filter hx
  have hidF : (ch'._items.map NewsItem.id).Nodup := by
    rw [hrest]
    simp only [Channel.check_expired]
    refine ((List.filter_sublist _).map NewsItem.id).nodup ?_
    rw [(assign_orders_frame chm nI).2.2.2.2]
    exact hidnodup
  have hrevnodup : nI.reverse.Nodup := by rw [List.nodup_reverse]; exact hd2
  have hattr := assign_fold_attr nI.reverse chm hrevnodup
  have hold : ∀ xm, xm ∈ chm._items →
      (∃ x₀, x₀ ∈ ch._items ∧ xm.id = x₀.id ∧ xm.order = x₀.order) ∨
      (xm.id ∈ nI ∧ xm.order = none) := by
    intro xm hxm
    have hpair : (xm.id, xm.order) ∈ chm._items.map (fun x => (x.id, x.order)) :=
      List.mem_map.mpr ⟨xm, hxm, rfl⟩
    rw [hd5'] at hpair
    rcases List.mem_append.mp hpair with hp | hp
    · obtain ⟨x₀, hx₀, heq⟩ := List.mem_map.mp hp
      have hf : x₀.id = xm.id := congrArg Prod.fst heq
      have hs : x₀.order = xm.order := congrArg Prod.snd heq
      exact Or.inl ⟨x₀, hx₀, hf.symm, hs.symm⟩
    · obtain ⟨i, hi, heq⟩ := List.mem_map.mp hp
      have hf : i = xm.id := congrArg Prod.fst heq
      have hs : (none : Option String) = xm.order := congrArg Prod.snd heq
      exact Or.inr ⟨hf ▸ hi, hs.symm⟩
  -- a full attribution of every surviving item's order
  have hfull : ∀ x', x' ∈ ch'._items →
      (∃ x₀, x₀ ∈ ch._items ∧ x'.id = x₀.id ∧ x'.order = x₀.order ∧ x'.id ∉ nI) ∨
      (∃ p, ∃ hp : p < nI.reverse.length, x'.id = nI.reverse.get ⟨p, hp⟩ ∧
        x'.order = some (natToStr (strToNat ch.next_order + p + 1))) := by
    intro x' hx'
    obtain ⟨xm, hxm, hid, hcase⟩ := hattr x' (hsubA x' hx')
    rcases hcase with ⟨hord, hnotin⟩ | ⟨p, hp, hgetp, hordp⟩
    · rcases hold xm hxm with ⟨x₀, hx₀, hid0, hord0⟩ | ⟨hidn, hordn⟩
      · refine Or.inl ⟨x₀, hx₀, hid.trans hid0, hord.trans hord0, ?_⟩
        intro hc
        exact hnotin (List.mem_reverse.mpr hc)
      · exfalso
        exact hnotin (List.mem_reverse.mpr (hid ▸ hidn))
    · exact Or.inr ⟨p, hp, hgetp, by rw [hordp, hkchm]⟩
  refine ⟨hchnext', by omega, ?_, ⟨?_, hidF, ?_, ?_⟩, ?_⟩
  · intro hne'
    have : nI.length ≠ 0 := fun hc => hne' (List.length_eq_zero.mp hc)
    omega
  · -- canonical next_order
    rw [hchnext']
    conv_rhs => rw [strToNat_natToStr]
  · -- every order is a bounded canonical numeral
    intro it hit
    rcases hfull it hit with ⟨x₀, hx₀, -, hord, -⟩ | ⟨p, hp, -, hord⟩
    · obtain ⟨n, hn, hnk⟩ := hinv3 x₀ hx₀
      exact ⟨n, by rw [hord, hn], by rw [hroundk]; omega⟩
    · refine ⟨strToNat ch.next_order + p + 1, hord, ?_⟩
      rw [hroundk]
      rw [List.length_reverse] at hp
      omega
  · -- no two items share an order value
    intro x hx y hy hxy
    rcases hfull x hx with ⟨x₀, hx₀, hxid, hxord, -⟩ | ⟨p, hp, hxid, hxord⟩ <;>
      rcases hfull y hy with ⟨y₀, hy₀, hyid, hyord, -⟩ | ⟨q, hq, hyid, hyord⟩
    · have : x₀.order = y₀.order := by rw [← hxord, ← hyord, hxy]
      have hxy0 : x₀ = y₀ := hinv4 x₀ hx₀ y₀ hy₀ this
      refine List.inj_on_of_nodup_map hidF hx hy ?_
      rw [hxid, hyid, hxy0]
    · exfalso
      obtain ⟨n, hn, hnk⟩ := hinv3 x₀ hx₀
      have : some (natToStr n) = some (natToStr (strToNat ch.next_order + q + 1)) := by
        rw [← hn, ← hxord, hxy, hyord]
      have := natToStr_injective (Option.some.inj this)
      omega
    · exfalso
      obtain ⟨n, hn, hnk⟩ := hinv3 y₀ hy₀
      have : some (natToStr n) = some (natToStr (strToNat ch.next_order + p + 1)) := by
        rw [← hn, ← hyord, ← hxy, hxord]
      have := natToStr_injective (Option.some.inj this)
      omega
    · have : natToStr (strToNat ch.next_order + p + 1) =
          natToStr (strToNat ch.next_order + q + 1) := by
        have := hxord ▸ hxy ▸ hyord
        exact Option.some.inj (by rw [← hxord, hxy, hyord])
      have hpq : p = q := by
        have := natToStr_injective this
        omega
      refine List.inj_on_of_nodup_map hidF hx hy ?_
      rw [hxid, hyid]
      congr 1
      exact Fin.ext hpq
  · -- later in feed order receives a strictly lower order number
    intro j j' hj hj' hlt
    have hforward : ∀ i, (hi : i < nI.length) →
        ∃ x', x' ∈ ch'._items ∧ x'.id = nI.get ⟨i, hi⟩ ∧
          x'.order = some (natToStr (strToNat ch.next_order + (nI.length - 1 - i) + 1)) := by
      intro i hi
      have hpi : nI.length - 1 - i < nI.reverse.length := by
        rw [List.length_reverse]; omega
      have hgeti : nI.reverse.get ⟨nI.length - 1 - i, hpi⟩ = nI.get ⟨i, hi⟩ :=
        List.get_reverse nI i hpi hi
      have hmemi : nI.reverse.get ⟨nI.length - 1 - i, hpi⟩ ∈
          chm._items.map NewsItem.id := by
        rw [hidschm, hgeti]
        exact List.mem_append_right _ (List.get_mem nI i hi)
      obtain ⟨x', hx', hxid, hxord⟩ :=
        assign_fold_get nI.reverse chm hrevnodup (nI.length - 1 - i) hpi hmemi
      refine ⟨x', ?_, by rw [hxid, hgeti], by rw [hxord, hkchm]⟩
      -- x' survives the expiry scan: its id is among the snapshot ids
      rw [hrest]
      simp only [Channel.check_expired]
      rw [List.mem_filter]
      refine ⟨hx', ?_⟩
      rw [Bool.not_eq_eq_eq_not, Bool.not_true, Bool.eq_false_iff]
      intro hcont
      obtain ⟨y, hy, hyid⟩ := List.mem_map.mp (List.elem_iff.mp hcont)
      have hnotfI := expire_scan_not_mem fI fI.length _ y hy
      have hinfI : x'.id ∈ fI := by
        rw [hfIsnap, hxid, hgeti]
        exact hd4' _ (List.get_mem nI i hi)
      rw [hyid] at hnotfI
      exact (Bool.eq_false_iff.mp hnotfI) (by exact List.elem_iff.mpr hinfI)
    obtain ⟨it, hit, hitid, hitord⟩ := hforward j hj
    obtain ⟨it', hit', hitid', hitord'⟩ := hforward j' hj'
    refine ⟨it, it', hit, hit', hitid, hitid', _, _, hitord, hitord', ?_⟩
    omega

/-- C5 witness: reconciling a fresh channel with two new entries raises
`next_order` from 0 to 2 and gives the later entry the lower order. -/
theorem order_assignment_witness :
    c5result.next_order = natToStr (strToNat (freshChannel "u").next_order + 2) ∧
    (∃ it it', it ∈ c5result._items ∧ it' ∈ c5result._items ∧
      it.id = "a" ∧ it'.id = "b" ∧
      ∃ n n', it.order = some (natToStr n) ∧ it'.order = some (natToStr n') ∧ n' < n) := by
  have happ := order_assignment 2 (fun s => s) 100 [idEntry "a", idEntry "b"]
    (freshChannel "u") c5result c5chm ["a", "b"] ["a", "b"]
    (by decide)
    ⟨by decide, by decide,
     (by intro it hit; simp [freshChannel] at hit),
     (by intro x hx; simp [freshChannel] at hx)⟩
    rfl rfl
  obtain ⟨h1, -, -, -, h5⟩ := happ
  refine ⟨by exact h1, ?_⟩
  obtain ⟨it, it', hmem, hmem', hid, hid', n, n', ho, ho', hlt⟩ :=
    h5 0 1 (by decide) (by decide) (by decide)
  exact ⟨it, it', hmem, hmem', hid, hid', n, n', ho, ho', hlt⟩
